import Mathlib

/-!
Verification of the errfix rewrite engine.

The Go sources translate as follows:
* the dst expression / statement / declaration nodes the rule engine
  inspects become the inductive types `Expr`, `Stmt`, `Decl`, `GoFile`;
* `fixReturnStmt`, `fixIfStmt`, `fixTypeAssertExpr`, `fixCallExpr`
  (pkgErrorsDstProcessor) become pure functions on those types;
* `dst.Inspect` driving `Process` over every node becomes the `visit*`
  family (pre-order: the fix runs on a node first, then the traversal
  descends into the children of the rewritten node);
* `EndProcess` plus the import helpers of dst.go become `EndProcess`,
  `getImports`, `hasImportPath`, `replaceErrorsDecls`, `addImportDecls`;
* `processor.Process` becomes `Process`, parameterised by the external
  parse / render capability (decorator.ParseFile / decorator.Fprint);
* the reader (`Read`, `read`, `readPath`, `readDir`) becomes the
  `Read` / `readPhase` functions over an abstract file system `FS`;
* the pipeline orchestrator (`ErrFix.Process`) becomes `ErrFixProcess`.

Modelling conventions: `dst.BasicLit` stores the quoted source text and
the engine round-trips it through `strconv.Unquote` / `%q`; here literal
values are stored unquoted, which makes that round trip the identity
(the unquote-failure branch is dead for parser-produced literals).
Identifiers are bare names; `isTopName`'s additional `Obj == nil` check
is a resolution detail outside the purely syntactic model.
-/

namespace Errfix

/-- go/token binary operators that the rule engine distinguishes. -/
inductive BinOp where
  | eql
  | neq
  | land
  | lor
  | otherOp (tok : String)
deriving DecidableEq, Repr

/-- go/token literal kinds: the engine only distinguishes STRING. -/
inductive LitKind where
  | str
  | otherKind (tok : String)
deriving DecidableEq, Repr

/-- dst expression nodes.  `otherE` stands for the expression forms the
rule engine never matches on directly (unary ops, composite literals,
index expressions, ...), keeping their children visible to traversal. -/
inductive Expr where
  | ident (name : String)
  | basicLit (kind : LitKind) (value : String)
  | binary (x : Expr) (op : BinOp) (y : Expr)
  | selector (x : Expr) (sel : String)
  | call (fn : Expr) (args : List Expr)
  | typeAssert (x : Expr) (ty : Option Expr)
  | otherE (tag : String) (children : List Expr)

/-- dst statement nodes: return statements and if statements are matched
by the rules; every other statement form only contributes children. -/
inductive Stmt where
  | ret (results : List Expr)
  | ifS (init : Option Stmt) (cond : Expr) (body : List Stmt) (els : Option Stmt)
  | otherS (tag : String) (exprs : List Expr) (stmts : List Stmt)

/-- One dst.ImportSpec: optional alias and the (unquoted) import path. -/
structure ImportSpec where
  name : Option String
  path : String
deriving DecidableEq, Repr

/-- Top-level declarations: import groupings (GenDecl with Tok IMPORT),
functions, and other declarations carrying expressions (var/const). -/
inductive Decl where
  | importD (specs : List ImportSpec)
  | funcD (name : String) (body : List Stmt)
  | otherD (exprs : List Expr)

/-- One parsed source file (dst.File): package name and declarations. -/
structure GoFile where
  pkg : String
  decls : List Decl

/-- errfix.File: a unit of work (name, content, optional error). -/
structure File where
  name : String
  content : String
  error : Option String
deriving DecidableEq, Repr

/-! Identifier constants of newPkgErrorsDstProcessor. -/

def pkgPath : String := "github.com/pkg/errors"
def errorsIdent : String := "errors"
def withStackIdent : String := "WithStack"
def causeIdent : String := "Cause"
def newIdent : String := "New"
def errorfIdent : String := "Errorf"
def wrapfIdent : String := "Wrapf"
def errIdent : String := "err"
def nilIdent : String := "nil"
def fmtIdent : String := "fmt"

/-- dst.go isName: the expression is an identifier with the given name. -/
def isName (n : Expr) (name : String) : Bool :=
  match n with
  | .ident id => id == name
  | _ => false

/-- dst.go isTopName: a bare identifier with the given name. -/
def isTopName (n : Expr) (name : String) : Bool :=
  match n with
  | .ident id => id == name
  | _ => false

/-- dst.go isPkgSelector: the node matches the rule "pkg.name". -/
def isPkgSelector (t : Expr) (pkg name : String) : Bool :=
  match t with
  | .selector x sel => isTopName x pkg && sel == name
  | _ => false

/-- The replacement `errors.WithStack(err)` built by fixReturnStmt. -/
def withStackCall : Expr :=
  .call (.selector (.ident errorsIdent) withStackIdent) [.ident errIdent]

/-- causeExpr: the replacement `errors.Cause(err)`. -/
def causeExpr : Expr :=
  .call (.selector (.ident errorsIdent) causeIdent) [.ident errIdent]

/-- The rewritten call target `errors.Errorf`. -/
def errorfFun : Expr := .selector (.ident errorsIdent) errorfIdent

/-- The rewritten call target `errors.Wrapf`. -/
def wrapfFun : Expr := .selector (.ident errorsIdent) wrapfIdent

/-- fixReturnStmt on the Results list of a return statement:
`return [..., ]err` becomes `return [..., ]errors.WithStack(err)`;
empty result lists and other last results are untouched. -/
def fixReturnStmt (results : List Expr) : List Expr × Bool :=
  match results.getLast? with
  | none => (results, false)
  | some last =>
    if isName last errIdent then (results.dropLast ++ [withStackCall], true)
    else (results, false)

/-- compareErr of fixIfStmt, on the parts of a binary condition. -/
def compareErr (x : Expr) (op : BinOp) (y : Expr) (yIsNil : Bool) : Bool :=
  (isName x errIdent && (op == .eql || op == .neq)) &&
    (if yIsNil then isName y nilIdent else !isName y nilIdent)

/-- fixIfStmt on the condition of an if statement:
`err == something-but-not-nil` (or `!=`) gets its left operand replaced
by `errors.Cause(err)`; a compound `err ==/!= nil && err ==/!= X`
(or `||`) is rewritten only in its second clause. -/
def fixIfCompound (x : Expr) (op : BinOp) (y : Expr) : Expr × Bool :=
  match x, y with
  | .binary xx xop xy, .binary yx yop yy =>
    if (op == .land || op == .lor) && compareErr xx xop xy true &&
        compareErr yx yop yy false then
      (.binary (.binary xx xop xy) op (.binary causeExpr yop yy), true)
    else (.binary (.binary xx xop xy) op (.binary yx yop yy), false)
  | x', y' => (.binary x' op y', false)

def fixIfStmt (cond : Expr) : Expr × Bool :=
  match cond with
  | .binary x op y =>
    if compareErr x op y false then (.binary causeExpr op y, true)
    else fixIfCompound x op y
  | c => (c, false)

/-- fixTypeAssertExpr on the subject of a type assertion. -/
def fixTypeAssertExpr (x : Expr) : Expr × Bool :=
  if isName x errIdent then (causeExpr, true) else (x, false)

/-- strings.TrimRight(s, " :,"): drop trailing spaces, colons, commas. -/
def trimSep (s : String) : String :=
  ⟨(s.data.reverse.dropWhile (fun c => c == ' ' || c == ':' || c == ',')).reverse⟩

/-- The format-string rewrite of fixCallExpr: strip the trailing `%v`
and any immediately preceding separator punctuation. -/
def trimVerb (format : String) : String :=
  trimSep (format.dropRight 2)

/-- strings.HasSuffix(format, "%v"): the last two characters are `%v`. -/
def endsInPctV (s : String) : Bool :=
  match s.data.reverse with
  | 'v' :: '%' :: _ => true
  | _ => false

/-- fixCallExpr on a call's target and arguments.  `errors.New(...)` is
only a change trigger; `fmt.Errorf` is rewritten to `errors.Wrapf` when
the format ends in `%v` and the last argument is `err`, and to
`errors.Errorf` otherwise (given a string-literal first argument). -/
def fixCallExpr (fn : Expr) (args : List Expr) : (Expr × List Expr) × Bool :=
  if isPkgSelector fn errorsIdent newIdent then ((fn, args), true)
  else if isPkgSelector fn fmtIdent errorfIdent then
    match args with
    | [] => ((fn, args), false)
    | a0 :: rest =>
      match a0 with
      | .basicLit .str format =>
        match rest with
        | [] => ((errorfFun, a0 :: rest), true)
        | r1 :: rs =>
          let last := (r1 :: rs).getLast (List.cons_ne_nil r1 rs)
          if isName last errIdent && endsInPctV format then
            ((wrapfFun,
              last :: .basicLit .str (trimVerb format) :: (r1 :: rs).dropLast),
             true)
          else ((errorfFun, a0 :: r1 :: rs), true)
      | a0' => ((fn, a0' :: rest), false)
  else ((fn, args), false)

/-!
The traversal.  `dst.Inspect` performs a pre-order walk; the callback
(`pkgErrorsDstProcessor.Process`) mutates the node it is given, and the
walk then descends into the children of the *mutated* node.  The
`visit*` functions below reproduce this: at each node the matching fix
is applied first, and traversal continues below the result.  Nodes
inserted by a fix (`errors.WithStack(err)`, `errors.Cause(err)`, the
`errors.Errorf` / `errors.Wrapf` selectors and the trimmed format
literal) contain no shape any rule matches, so walking them returns
them unchanged with no flag; they appear verbatim in the result while
traversal continues in the surviving original subterms (subterms that a
fix drops are identifiers or literals, whose walk is also the identity,
so visiting children element-wise before reassembly is exact).  The
lemmas `visitExpr_withStackCall`, `visitExpr_causeExpr` (further below)
check this reading against the definitions.  The second component is
the accumulated `changed` flag (`p.changed = p.changed || changed`).
-/

mutual

def visitExpr : Expr → Expr × Bool
  | .ident n => (.ident n, false)
  | .basicLit k v => (.basicLit k v, false)
  | .binary x op y =>
    (.binary (visitExpr x).1 op (visitExpr y).1, (visitExpr x).2 || (visitExpr y).2)
  | .selector x s =>
    (.selector (visitExpr x).1 s, (visitExpr x).2)
  | .typeAssert x ty =>
    if isName x errIdent then
      (.typeAssert causeExpr (visitExprO ty).1, true)
    else
      (.typeAssert (visitExpr x).1 (visitExprO ty).1,
       (visitExpr x).2 || (visitExprO ty).2)
  | .call fn args =>
    if isPkgSelector fn errorsIdent newIdent then
      (.call (visitExpr fn).1 (visitExprs args).1, true)
    else if isPkgSelector fn fmtIdent errorfIdent then
      visitFmtCall (visitExpr fn) args
    else
      (.call (visitExpr fn).1 (visitExprs args).1,
       (visitExpr fn).2 || (visitExprs args).2)
  | .otherE tag es =>
    (.otherE tag (visitExprs es).1, (visitExprs es).2)

/-- The fmt.Errorf branch of the call rewrite, with its children
visited (the dropped format literal and the original `fmt.Errorf`
selector are identifiers/literals whose walk is the identity; `vfn` is
the visited call target, used only by the branches that keep it). -/
def visitFmtCall (vfn : Expr × Bool) : List Expr → Expr × Bool
  | [] => (.call vfn.1 [], vfn.2)
  | a0 :: rest =>
    match a0 with
    | .basicLit .str format =>
      match rest with
      | [] => (.call errorfFun [.basicLit .str format], true)
      | r1 :: rs =>
        if isName ((r1 :: rs).getLast (List.cons_ne_nil r1 rs)) errIdent &&
            endsInPctV format then
          (.call wrapfFun
            (((visitExpr r1).1 :: (visitExprs rs).1).getLast
                (List.cons_ne_nil (visitExpr r1).1 (visitExprs rs).1)
              :: .basicLit .str (trimVerb format)
              :: ((visitExpr r1).1 :: (visitExprs rs).1).dropLast),
           true)
        else
          (.call errorfFun
            (.basicLit .str format :: (visitExpr r1).1 :: (visitExprs rs).1),
           true)
    | a0' =>
      (.call vfn.1 ((visitExpr a0').1 :: (visitExprs rest).1),
       vfn.2 || (visitExpr a0').2 || (visitExprs rest).2)

def visitExprs : List Expr → List Expr × Bool
  | [] => ([], false)
  | e :: es =>
    ((visitExpr e).1 :: (visitExprs es).1, (visitExpr e).2 || (visitExprs es).2)

def visitExprO : Option Expr → Option Expr × Bool
  | none => (none, false)
  | some e => (some (visitExpr e).1, (visitExpr e).2)

end

/-- The compound shape test of fixIfStmt: `err ==/!= nil  &&/||  err
==/!= something-but-not-nil`. -/
def ifCompound (x : Expr) (op : BinOp) (y : Expr) : Bool :=
  match x, y with
  | .binary xx xop xy, .binary yx yop yy =>
    (op == .land || op == .lor) && compareErr xx xop xy true &&
      compareErr yx yop yy false
  | _, _ => false

/-- Handling of a binary if-condition after the simple `err == X` test
failed: apply the compound rewrite when its shape matches, then walk
the (possibly rewritten) condition. -/
def visitIfCond (x : Expr) (op : BinOp) (y : Expr) : Expr × Bool :=
  match x, y with
  | .binary xx xop xy, .binary yx yop yy =>
    if (op == .land || op == .lor) && compareErr xx xop xy true &&
        compareErr yx yop yy false then
      (.binary (.binary xx xop xy) op (.binary causeExpr yop (visitExpr yy).1), true)
    else visitExpr (.binary (.binary xx xop xy) op (.binary yx yop yy))
  | x', y' => visitExpr (.binary x' op y')

mutual

def visitStmt : Stmt → Stmt × Bool
  | .ret results =>
    match results with
    | [] => (.ret [], false)
    | r :: rs =>
      if isName ((r :: rs).getLast (List.cons_ne_nil r rs)) errIdent then
        (.ret (((visitExpr r).1 :: (visitExprs rs).1).dropLast ++ [withStackCall]),
         true)
      else
        (.ret ((visitExpr r).1 :: (visitExprs rs).1),
         (visitExpr r).2 || (visitExprs rs).2)
  | .ifS init cond body els =>
    match cond with
    | .binary x op y =>
      if compareErr x op y false then
        (.ifS (visitStmtO init).1 (.binary causeExpr op (visitExpr y).1)
          (visitStmts body).1 (visitStmtO els).1, true)
      else
        (.ifS (visitStmtO init).1 (visitIfCond x op y).1
          (visitStmts body).1 (visitStmtO els).1,
         (visitStmtO init).2 || (visitIfCond x op y).2 ||
           (visitStmts body).2 || (visitStmtO els).2)
    | c =>
      (.ifS (visitStmtO init).1 (visitExpr c).1 (visitStmts body).1 (visitStmtO els).1,
       (visitStmtO init).2 || (visitExpr c).2 || (visitStmts body).2 || (visitStmtO els).2)
  | .otherS tag es ss =>
    (.otherS tag (visitExprs es).1 (visitStmts ss).1,
     (visitExprs es).2 || (visitStmts ss).2)

def visitStmts : List Stmt → List Stmt × Bool
  | [] => ([], false)
  | s :: ss =>
    ((visitStmt s).1 :: (visitStmts ss).1, (visitStmt s).2 || (visitStmts ss).2)

def visitStmtO : Option Stmt → Option Stmt × Bool
  | none => (none, false)
  | some s => (some (visitStmt s).1, (visitStmt s).2)

end

/-- Visiting one declaration: import groupings contain nothing any rule
matches; functions and expression-bearing declarations are traversed. -/
def visitDecl : Decl → Decl × Bool
  | .importD specs => (.importD specs, false)
  | .funcD n body => (.funcD n (visitStmts body).1, (visitStmts body).2)
  | .otherD es => (.otherD (visitExprs es).1, (visitExprs es).2)

def visitDecls : List Decl → List Decl × Bool
  | [] => ([], false)
  | d :: ds =>
    ((visitDecl d).1 :: (visitDecls ds).1, (visitDecl d).2 || (visitDecls ds).2)

/-- The whole `dst.Inspect(df, ...)` pass of `processor.Process` with
the flag `pkgErrorsDstProcessor.changed` accumulated over all nodes. -/
def visitFile (f : GoFile) : GoFile × Bool :=
  (⟨f.pkg, (visitDecls f.decls).1⟩, (visitDecls f.decls).2)

/-! Import handling (dst.go and `EndProcess`). -/

/-- dst.go getImports: all import groupings, in declaration order. -/
def getImports (f : GoFile) : List (List ImportSpec) :=
  f.decls.filterMap fun d =>
    match d with
    | .importD specs => some specs
    | _ => none

/-- dst.go findImportByPath expressed as a search over all groupings. -/
def findImportByPath (imports : List (List ImportSpec)) (ipath : String) :
    Option ImportSpec :=
  (imports.flatMap id).find? fun s => s.path == ipath

/-- Whether some import spec of the file has the given path. -/
def hasImportPath (f : GoFile) (ipath : String) : Bool :=
  (findImportByPath (getImports f) ipath).isSome

/-- Replace the first spec with path "errors" in one grouping: the
in-place mutation `imp.Name = nil; imp.Path.Value = quote(pkgPath)`. -/
def replaceErrorsSpec : List ImportSpec → Option (List ImportSpec)
  | [] => none
  | s :: ss =>
    if s.path == "errors" then some (⟨none, pkgPath⟩ :: ss)
    else (replaceErrorsSpec ss).map (s :: ·)

/-- Replace the first "errors" spec across the groupings in order. -/
def replaceErrorsDecls : List Decl → List Decl
  | [] => []
  | .importD specs :: ds =>
    match replaceErrorsSpec specs with
    | some specs' => .importD specs' :: ds
    | none => .importD specs :: replaceErrorsDecls ds
  | d :: ds => d :: replaceErrorsDecls ds

/-- Append the new spec to the first import grouping, if one exists. -/
def appendToFirstImport : List Decl → Option (List Decl)
  | [] => none
  | .importD specs :: ds => some (.importD (specs ++ [⟨none, pkgPath⟩]) :: ds)
  | d :: ds => (appendToFirstImport ds).map (d :: ·)

/-- dst.go addImport for (pkgPath, no alias): extend the first import
grouping, or synthesize a new grouping prepended to the declarations. -/
def addImportDecls (ds : List Decl) : List Decl :=
  match appendToFirstImport ds with
  | some ds' => ds'
  | none => .importD [⟨none, pkgPath⟩] :: ds

/-- pkgErrorsDstProcessor.EndProcess: reconcile the import list once,
only when the changed flag is set. -/
def EndProcess (changed : Bool) (f : GoFile) : GoFile × Bool :=
  if !changed then (f, false)
  else if hasImportPath f pkgPath then (f, true)
  else if hasImportPath f "errors" then
    ({ f with decls := replaceErrorsDecls f.decls }, true)
  else ({ f with decls := addImportDecls f.decls }, true)

/-- One rule applied to one parsed file: the traversal followed by the
finalize step (the loop body of `processor.Process` for the single
built-in rule). -/
def runRule (f : GoFile) : GoFile × Bool :=
  EndProcess (visitFile f).2 (visitFile f).1

/-- processor.Process.  The parse / render capability of the syntax
tree model (decorator.ParseFile / decorator.Fprint) is an external
dependency, passed in as functions; a parse failure is `none`.  The
tree is rendered only when the changed flag is set; otherwise the
input's content is returned untouched. -/
def Process (parse : String → Option GoFile) (render : GoFile → String)
    (f : File) : Option File :=
  match parse f.content with
  | none => none
  | some df =>
    if (runRule df).2 then some ⟨f.name, render (runRule df).1, none⟩
    else some ⟨f.name, f.content, none⟩

end Errfix

namespace Errfix

/-! Quick sanity checks of the fix functions against the repository's
test cases. -/

example : fixReturnStmt [.ident "err"] = ([withStackCall], true) := rfl

example :
    fixReturnStmt [.basicLit (.otherKind "INT") "1", .ident "err"] =
      ([.basicLit (.otherKind "INT") "1", withStackCall], true) := rfl

example : fixReturnStmt [.ident "nil"] = ([.ident "nil"], false) := rfl

example :
    fixIfStmt (.binary (.ident "err") .neq (.ident "ErrNotFound")) =
      (.binary causeExpr .neq (.ident "ErrNotFound"), true) := rfl

example :
    fixIfStmt (.binary (.ident "err") .eql (.ident "nil")) =
      (.binary (.ident "err") .eql (.ident "nil"), false) := rfl

example :
    fixCallExpr (.selector (.ident "fmt") "Errorf")
        [.basicLit .str "not found: %v", .ident "err"] =
      ((wrapfFun, [.ident "err", .basicLit .str "not found"]), true) := rfl

example :
    fixCallExpr (.selector (.ident "fmt") "Errorf")
        [.basicLit .str "not found %d: %v",
         .basicLit (.otherKind "INT") "1", .ident "err"] =
      ((wrapfFun, [.ident "err", .basicLit .str "not found %d",
                   .basicLit (.otherKind "INT") "1"]), true) := rfl

example :
    fixCallExpr (.selector (.ident "fmt") "Errorf")
        [.basicLit .str "foo %s", .ident "x"] =
      ((errorfFun, [.basicLit .str "foo %s", .ident "x"]), true) := rfl

/- Test case "WithStack#2": the errors.New trigger plus the return-wrap,
with the standard "errors" import replaced in place. -/
example :
    runRule
        ⟨"foo",
         [.importD [⟨none, "bar"⟩, ⟨none, "errors"⟩],
          .funcD "foo"
            [.otherS "assign"
               [.call (.selector (.ident "errors") "New") [.basicLit .str "error"]] [],
             .ret [.ident "err"]]]⟩ =
      (⟨"foo",
        [.importD [⟨none, "bar"⟩, ⟨none, "github.com/pkg/errors"⟩],
         .funcD "foo"
           [.otherS "assign"
              [.call (.selector (.ident "errors") "New") [.basicLit .str "error"]] [],
            .ret [withStackCall]]]⟩, true) := rfl

/- Test case "Cause#1": `if err != ErrNotFound { return err }` rewrites
both the condition and the return; `if err == nil` stays untouched. -/
example :
    visitStmt
        (.ifS none (.binary (.ident "err") .neq (.ident "ErrNotFound"))
          [.ret [.ident "err"]] none) =
      (.ifS none (.binary causeExpr .neq (.ident "ErrNotFound"))
        [.ret [withStackCall]] none, true) := rfl

example :
    visitStmt (.ifS none (.binary (.ident "err") .eql (.ident "nil"))
        [.ret [.ident "nil"]] none) =
      (.ifS none (.binary (.ident "err") .eql (.ident "nil"))
        [.ret [.ident "nil"]] none, false) := rfl

/- A file with none of the five shapes reports no change. -/
example :
    runRule ⟨"foo", [.funcD "foo" []]⟩ = (⟨"foo", [.funcD "foo" []]⟩, false) := rfl

end Errfix

namespace Errfix

/-!
The reader (`reader.Read` and the asynchronous `reader.read` family).
File-system access (`os.Stat`, `os.ReadFile`, `filepath.Walk`) is an
external capability, abstracted as `FS`; the inputs of `NewReader` form
the `Input` sum.  `filepath.Walk` is modelled by the entries it reports
before a possible aborting error.
-/

/-- One input source of NewReader: an *os.File, an io.Reader, a path
string, or a value of any other type. -/
inductive Input where
  | osFile (name : String) (content : String) (readError : Option String)
  | ioReader (content : String) (readError : Option String)
  | path (p : String)
  | unsupported
deriving Repr

/-- os.FileInfo, reduced to what the reader consults. -/
structure FInfo where
  isDir : Bool
deriving DecidableEq, Repr

/-- The external file system: stat, whole-file read, directory walk
(entries visited in order before an optional aborting error). -/
structure FS where
  stat : String → Except String FInfo
  readFile : String → Except String String
  walkEntries : String → List (String × Bool)
  walkError : String → Option String

/-- The validation loop at the top of `reader.Read`: the first invalid
source (unstattable path or unsupported type) produces an error for the
whole call. -/
def validateInputs (fs : FS) : List Input → Option String
  | [] => none
  | .osFile _ _ _ :: rest => validateInputs fs rest
  | .ioReader _ _ :: rest => validateInputs fs rest
  | .path p :: rest =>
    match fs.stat p with
    | .error e => some ("the input source is not a valid file or directory, " ++ e)
    | .ok _ => validateInputs fs rest
  | .unsupported :: _ =>
    some "the input source only supports *os.File, io.Reader and string"

/-- `formatName`: names after the first get a "#index" suffix. -/
def formatName (s : String) (i : Nat) : String :=
  if i > 0 then s ++ "#" ++ toString i else s

/-- strings.HasSuffix(p, ".go"). -/
def isGoFile (p : String) : Bool :=
  match p.data.reverse with
  | 'o' :: 'g' :: '.' :: _ => true
  | _ => false

/-- reader.readPath: only .go files are read; a read failure becomes a
File carrying the error. -/
def readPath (fs : FS) (p : String) : List File :=
  if isGoFile p then
    match fs.readFile p with
    | .ok content => [⟨p, content, none⟩]
    | .error e => [⟨p, "", some e⟩]
  else []

/-- reader.readDir: readPath on every non-directory walk entry; a walk
error is emitted as a File carrying the error. -/
def readDir (fs : FS) (dir : String) : List File :=
  ((fs.walkEntries dir).filter (fun e => !e.2)).flatMap (fun e => readPath fs e.1) ++
    match fs.walkError dir with
    | some e => [⟨dir, "", some e⟩]
    | none => []

/-- The emission loop of `reader.read` (the goroutine): every source
yields zero or more Files on the channel; read and stat failures are
carried on the emitted File, never thrown. -/
def readPhase (fs : FS) : List Input → Nat → List File
  | [], _ => []
  | .osFile name content readError :: rest, i =>
    ⟨formatName name i, content, readError⟩ :: readPhase fs rest (i + 1)
  | .ioReader content readError :: rest, i =>
    ⟨formatName "io.Reader" i, content, readError⟩ :: readPhase fs rest (i + 1)
  | .path p :: rest, i =>
    (match fs.stat p with
     | .error e => [⟨p, "", some e⟩]
     | .ok info => if info.isDir then readDir fs p else readPath fs p) ++
      readPhase fs rest i
  | .unsupported :: rest, i => readPhase fs rest i

/-- reader.Read: an empty input list or a failed validation makes the
call itself fail; otherwise the stream of `readPhase` is produced. -/
def Read (fs : FS) (inputs : List Input) : Except String (List File) :=
  if inputs.isEmpty then .error "no source to read"
  else
    match validateInputs fs inputs with
    | some e => .error e
    | none => .ok (readPhase fs inputs 0)

/-!
The pipeline orchestrator (`ErrFix.Process`).  Each stream item is
scheduled as a work unit running `fn` (read-error check, processor,
writer).  The scheduling loop selects between the file channel and
`errCh`; nothing in the code ever sends on `errCh`, so the loop's error
branch is unreachable and every stream item is scheduled.  The
errgroup returns the first error observed among the settled units
(completion order is timing-dependent; `firstUnitError` uses stream
order, which the theorems only use when a single unit fails).
-/

/-- The work unit `fn`: a file already carrying a read error fails the
unit; otherwise the processor and then the writer run. -/
def unitRun (proc : File → Except String File) (write : File → File → Option String)
    (f : File) : Option String :=
  match f.error with
  | some e => some ("error while reading from " ++ f.name ++ ", " ++ e)
  | none =>
    match proc f with
    | .error e => some e
    | .ok f2 => write f f2

/-- The scheduling loop: take from the stream until it closes, or stop
early when `errCh` holds an error. -/
def schedLoop (errCh : Option String) : List File → List File
  | [] => []
  | f :: fs =>
    match errCh with
    | some _ => []
    | none => f :: schedLoop errCh fs

/-- First error among the unit results. -/
def firstUnitError : List (Option String) → Option String
  | [] => none
  | some e :: _ => some e
  | none :: rest => firstUnitError rest

/-- ErrFix.Process after a successful Read: the scheduled units and the
error returned by the run.  `errCh` is passed as `none` because no send
on it exists anywhere in the code. -/
def ErrFixProcess (proc : File → Except String File)
    (write : File → File → Option String) (files : List File) :
    List File × Option String :=
  let scheduled := schedLoop none files
  (scheduled, firstUnitError (scheduled.map (unitRun proc write)))

end Errfix

namespace Errfix

/-! Basic lemmas about the traversal. -/

theorem isName_iff (e : Expr) (n : String) : isName e n = true ↔ e = .ident n := by
  cases e <;> simp [isName]

theorem visitExprs_fst (l : List Expr) :
    (visitExprs l).1 = l.map (fun e => (visitExpr e).1) := by
  induction l with
  | nil => rfl
  | cons e es ih => simp [visitExprs, ih]

theorem visitExprs_snd (l : List Expr) :
    (visitExprs l).2 = l.any (fun e => (visitExpr e).2) := by
  induction l with
  | nil => rfl
  | cons e es ih => simp [visitExprs, ih]

theorem visitStmts_fst (l : List Stmt) :
    (visitStmts l).1 = l.map (fun s => (visitStmt s).1) := by
  induction l with
  | nil => rfl
  | cons s ss ih => simp [visitStmts, ih]

theorem visitDecls_fst (l : List Decl) :
    (visitDecls l).1 = l.map (fun d => (visitDecl d).1) := by
  induction l with
  | nil => rfl
  | cons d ds ih => simp [visitDecls, ih]

/-- Traversing the inserted `errors.WithStack(err)` call changes
nothing and reports no change. -/
theorem visitExpr_withStackCall : visitExpr withStackCall = (withStackCall, false) := rfl

/-- Traversing the inserted `errors.Cause(err)` call changes nothing
and reports no change. -/
theorem visitExpr_causeExpr : visitExpr causeExpr = (causeExpr, false) := rfl

/-- The fmt.Errorf branch equation on a cons argument list headed by a
string literal (the shape the Wrapf test inspects). -/
theorem visitFmtCall_wrapf_def (vfn : Expr × Bool) (format : String) (r1 : Expr)
    (rs : List Expr) :
    visitFmtCall vfn (.basicLit .str format :: r1 :: rs) =
      if (isName ((r1 :: rs).getLast (List.cons_ne_nil r1 rs)) errIdent &&
          endsInPctV format) = true then
        (.call wrapfFun
          (((visitExpr r1).1 :: (visitExprs rs).1).getLast
              (List.cons_ne_nil (visitExpr r1).1 (visitExprs rs).1)
            :: .basicLit .str (trimVerb format)
            :: ((visitExpr r1).1 :: (visitExprs rs).1).dropLast),
         true)
      else
        (.call errorfFun
          (.basicLit .str format :: (visitExpr r1).1 :: (visitExprs rs).1),
         true) := rfl

/-- Every branch of the fmt.Errorf rewrite produces a call node. -/
theorem visitFmtCall_shape (vfn : Expr × Bool) (args : List Expr) :
    ∃ fn' args', (visitFmtCall vfn args).1 = .call fn' args' := by
  cases args with
  | nil => exact ⟨_, _, rfl⟩
  | cons a0 rest =>
    cases a0 with
    | basicLit k v =>
      cases k with
      | str =>
        cases rest with
        | nil => exact ⟨_, _, rfl⟩
        | cons r1 rs =>
          rw [visitFmtCall_wrapf_def]
          split
          · exact ⟨_, _, rfl⟩
          · exact ⟨_, _, rfl⟩
      | otherKind _ => exact ⟨_, _, rfl⟩
    | _ => exact ⟨_, _, rfl⟩

/-- Visiting a call yields a call, whichever branch fires. -/
theorem visitExpr_call_shape (fn : Expr) (args : List Expr) :
    ∃ fn' args', (visitExpr (.call fn args)).1 = .call fn' args' := by
  unfold visitExpr
  repeat' split
  · exact ⟨_, _, rfl⟩
  · exact visitFmtCall_shape (visitExpr fn) args
  · exact ⟨_, _, rfl⟩

/-- Visiting a type assertion yields a type assertion. -/
theorem visitExpr_typeAssert_shape (x : Expr) (ty : Option Expr) :
    ∃ x' ty', (visitExpr (.typeAssert x ty)).1 = .typeAssert x' ty' := by
  unfold visitExpr
  split
  all_goals exact ⟨_, _, rfl⟩

/-- The traversal never turns a node into an identifier (or changes an
identifier), so name tests are stable under it. -/
theorem isName_visitExpr (e : Expr) (n : String) :
    isName (visitExpr e).1 n = isName e n := by
  cases e with
  | call fn args =>
    obtain ⟨fn', args', h⟩ := visitExpr_call_shape fn args
    rw [h]; rfl
  | typeAssert x ty =>
    obtain ⟨x', ty', h⟩ := visitExpr_typeAssert_shape x ty
    rw [h]; rfl
  | _ => rfl

theorem isTopName_visitExpr (e : Expr) (n : String) :
    isTopName (visitExpr e).1 n = isTopName e n := by
  cases e with
  | call fn args =>
    obtain ⟨fn', args', h⟩ := visitExpr_call_shape fn args
    rw [h]; rfl
  | typeAssert x ty =>
    obtain ⟨x', ty', h⟩ := visitExpr_typeAssert_shape x ty
    rw [h]; rfl
  | _ => rfl

/-- Package-selector tests are stable under the traversal. -/
theorem isPkgSelector_visitExpr (e : Expr) (p n : String) :
    isPkgSelector (visitExpr e).1 p n = isPkgSelector e p n := by
  cases e with
  | selector x s => simp only [visitExpr, isPkgSelector, isTopName_visitExpr]
  | call fn args =>
    obtain ⟨fn', args', h⟩ := visitExpr_call_shape fn args
    rw [h]; rfl
  | typeAssert x ty =>
    obtain ⟨x', ty', h⟩ := visitExpr_typeAssert_shape x ty
    rw [h]; rfl
  | _ => rfl

/-- Whether the expression is a string literal (the first-argument test
of the fmt.Errorf rewrite). -/
def isStringLit (e : Expr) : Bool :=
  match e with
  | .basicLit .str _ => true
  | _ => false

theorem isStringLit_visitExpr (e : Expr) :
    isStringLit (visitExpr e).1 = isStringLit e := by
  cases e with
  | call fn args =>
    obtain ⟨fn', args', h⟩ := visitExpr_call_shape fn args
    rw [h]; rfl
  | typeAssert x ty =>
    obtain ⟨x', ty', h⟩ := visitExpr_typeAssert_shape x ty
    rw [h]; rfl
  | _ => rfl

/-- Pointwise form of a list fixed under map. -/
theorem map_eq_self_forall {α : Type} (f : α → α) :
    ∀ (l : List α), List.map f l = l → ∀ x ∈ l, f x = x := by
  intro l
  induction l with
  | nil => intro _ x hx; cases hx
  | cons a as ih =>
    intro h x hx
    simp only [List.map_cons, List.cons.injEq] at h
    rw [List.mem_cons] at hx
    rcases hx with rfl | hx
    · exact h.1
    · exact ih h.2 x hx

end Errfix

namespace Errfix

/-! Branch-level equations for `visitExpr` on calls and type
assertions, used to drive the idempotence proofs. -/

theorem visitExpr_typeAssert_def (x : Expr) (ty : Option Expr) :
    visitExpr (.typeAssert x ty) =
      if isName x errIdent = true then
        (.typeAssert causeExpr (visitExprO ty).1, true)
      else
        (.typeAssert (visitExpr x).1 (visitExprO ty).1,
         (visitExpr x).2 || (visitExprO ty).2) := rfl

theorem visitExpr_call_def (fn : Expr) (args : List Expr) :
    visitExpr (.call fn args) =
      if isPkgSelector fn errorsIdent newIdent = true then
        (.call (visitExpr fn).1 (visitExprs args).1, true)
      else if isPkgSelector fn fmtIdent errorfIdent = true then
        visitFmtCall (visitExpr fn) args
      else
        (.call (visitExpr fn).1 (visitExprs args).1,
         (visitExpr fn).2 || (visitExprs args).2) := rfl

theorem visitExpr_call_new (fn : Expr) (args : List Expr)
    (h1 : isPkgSelector fn errorsIdent newIdent = true) :
    visitExpr (.call fn args) = (.call (visitExpr fn).1 (visitExprs args).1, true) := by
  rw [visitExpr_call_def, if_pos h1]

theorem visitExpr_call_fmt_nil (fn : Expr)
    (h1 : isPkgSelector fn errorsIdent newIdent = false)
    (h2 : isPkgSelector fn fmtIdent errorfIdent = true) :
    visitExpr (.call fn []) = (.call (visitExpr fn).1 [], (visitExpr fn).2) := by
  rw [visitExpr_call_def, if_neg (by simp [h1]), if_pos h2]
  rfl

theorem visitExpr_call_fmt_one (fn : Expr) (format : String)
    (h1 : isPkgSelector fn errorsIdent newIdent = false)
    (h2 : isPkgSelector fn fmtIdent errorfIdent = true) :
    visitExpr (.call fn [.basicLit .str format]) =
      (.call errorfFun [.basicLit .str format], true) := by
  rw [visitExpr_call_def, if_neg (by simp [h1]), if_pos h2]
  rfl

theorem visitExpr_call_fmt_wrapf (fn : Expr) (format : String) (r1 : Expr) (rs : List Expr)
    (h1 : isPkgSelector fn errorsIdent newIdent = false)
    (h2 : isPkgSelector fn fmtIdent errorfIdent = true)
    (hok : (isName ((r1 :: rs).getLast (List.cons_ne_nil r1 rs)) errIdent &&
      endsInPctV format) = true) :
    visitExpr (.call fn (.basicLit .str format :: r1 :: rs)) =
      (.call wrapfFun
        (((visitExpr r1).1 :: (visitExprs rs).1).getLast
            (List.cons_ne_nil (visitExpr r1).1 (visitExprs rs).1)
          :: .basicLit .str (trimVerb format)
          :: ((visitExpr r1).1 :: (visitExprs rs).1).dropLast),
       true) := by
  rw [visitExpr_call_def, if_neg (by simp [h1]), if_pos h2,
    visitFmtCall_wrapf_def, if_pos hok]

theorem visitExpr_call_fmt_errorf (fn : Expr) (format : String) (r1 : Expr) (rs : List Expr)
    (h1 : isPkgSelector fn errorsIdent newIdent = false)
    (h2 : isPkgSelector fn fmtIdent errorfIdent = true)
    (hok : (isName ((r1 :: rs).getLast (List.cons_ne_nil r1 rs)) errIdent &&
      endsInPctV format) = false) :
    visitExpr (.call fn (.basicLit .str format :: r1 :: rs)) =
      (.call errorfFun (.basicLit .str format :: (visitExpr r1).1 :: (visitExprs rs).1),
       true) := by
  rw [visitExpr_call_def, if_neg (by simp [h1]), if_pos h2,
    visitFmtCall_wrapf_def, if_neg (by simp [hok])]

theorem visitExpr_call_fmt_nonlit (fn a0 : Expr) (rest : List Expr)
    (h1 : isPkgSelector fn errorsIdent newIdent = false)
    (h2 : isPkgSelector fn fmtIdent errorfIdent = true)
    (h3 : isStringLit a0 = false) :
    visitExpr (.call fn (a0 :: rest)) =
      (.call (visitExpr fn).1 ((visitExpr a0).1 :: (visitExprs rest).1),
       (visitExpr fn).2 || (visitExpr a0).2 || (visitExprs rest).2) := by
  rw [visitExpr_call_def, if_neg (by simp [h1]), if_pos h2]
  cases a0 with
  | basicLit k v =>
    cases k with
    | str => simp [isStringLit] at h3
    | otherKind _ => rfl
  | _ => rfl

theorem visitExpr_call_other (fn : Expr) (args : List Expr)
    (h1 : isPkgSelector fn errorsIdent newIdent = false)
    (h2 : isPkgSelector fn fmtIdent errorfIdent = false) :
    visitExpr (.call fn args) =
      (.call (visitExpr fn).1 (visitExprs args).1,
       (visitExpr fn).2 || (visitExprs args).2) := by
  rw [visitExpr_call_def, if_neg (by simp [h1]), if_neg (by simp [h2])]

/-- isStringLit holds exactly of string literals. -/
theorem isStringLit_iff (e : Expr) :
    isStringLit e = true ↔ ∃ v, e = .basicLit .str v := by
  cases e with
  | basicLit k v =>
    cases k with
    | str => simp [isStringLit]
    | otherKind _ => simp [isStringLit]
  | _ => simp [isStringLit]

/-!
Idempotence of the traversal on trees: visiting an already-visited
tree leaves it unchanged (the `changed` flag may fire again — the
`errors.New` trigger matches every time — but no node is rewritten a
second time).
-/

mutual

theorem visitExpr_idem : ∀ e : Expr, (visitExpr (visitExpr e).1).1 = (visitExpr e).1
  | .ident _ => rfl
  | .basicLit _ _ => rfl
  | .binary x op y => by
    have hx := visitExpr_idem x
    have hy := visitExpr_idem y
    simp only [visitExpr]
    rw [hx, hy]
  | .selector x _ => by
    have hx := visitExpr_idem x
    simp only [visitExpr]
    rw [hx]
  | .typeAssert x ty => by
    have hx := visitExpr_idem x
    have hty := visitExprO_idem ty
    by_cases h : isName x errIdent = true
    · rw [visitExpr_typeAssert_def, if_pos h, visitExpr_typeAssert_def,
        if_neg (by decide)]
      rw [show (visitExpr causeExpr).1 = causeExpr from rfl, hty]
    · rw [Bool.not_eq_true] at h
      rw [visitExpr_typeAssert_def, if_neg (by simp [h]), visitExpr_typeAssert_def,
        if_neg (by simp [isName_visitExpr, h])]
      rw [hx, hty]
  | .call fn [] => by
    have hfn := visitExpr_idem fn
    by_cases hnew : isPkgSelector fn errorsIdent newIdent = true
    · rw [visitExpr_call_new fn [] hnew,
        visitExpr_call_new (visitExpr fn).1 (visitExprs []).1
          (by rw [isPkgSelector_visitExpr]; exact hnew)]
      rw [hfn]
      rfl
    · rw [Bool.not_eq_true] at hnew
      by_cases hfmt : isPkgSelector fn fmtIdent errorfIdent = true
      · rw [visitExpr_call_fmt_nil fn hnew hfmt,
          visitExpr_call_fmt_nil (visitExpr fn).1
            (by rw [isPkgSelector_visitExpr]; exact hnew)
            (by rw [isPkgSelector_visitExpr]; exact hfmt)]
        rw [hfn]
      · rw [Bool.not_eq_true] at hfmt
        rw [visitExpr_call_other fn [] hnew hfmt,
          visitExpr_call_other (visitExpr fn).1 (visitExprs []).1
            (by rw [isPkgSelector_visitExpr]; exact hnew)
            (by rw [isPkgSelector_visitExpr]; exact hfmt)]
        rw [hfn]
        rfl
  | .call fn (a0 :: rest) => by
    have hfn := visitExpr_idem fn
    have ha0 := visitExpr_idem a0
    have hrest := visitExprs_idem rest
    have hargs := visitExprs_idem (a0 :: rest)
    by_cases hnew : isPkgSelector fn errorsIdent newIdent = true
    · rw [visitExpr_call_new fn (a0 :: rest) hnew,
        visitExpr_call_new (visitExpr fn).1 (visitExprs (a0 :: rest)).1
          (by rw [isPkgSelector_visitExpr]; exact hnew)]
      rw [hfn, hargs]
    · rw [Bool.not_eq_true] at hnew
      by_cases hfmt : isPkgSelector fn fmtIdent errorfIdent = true
      · by_cases hlit : isStringLit a0 = true
        · obtain ⟨format, rfl⟩ := (isStringLit_iff a0).mp hlit
          cases rest with
          | nil =>
            rw [visitExpr_call_fmt_one fn format hnew hfmt,
              visitExpr_call_other errorfFun [.basicLit .str format]
                (by decide) (by decide)]
            rfl
          | cons r1 rs =>
            by_cases hok :
                (isName ((r1 :: rs).getLast (List.cons_ne_nil r1 rs)) errIdent &&
                  endsInPctV format) = true
            · rw [visitExpr_call_fmt_wrapf fn format r1 rs hnew hfmt hok,
                visitExpr_call_other wrapfFun _ (by decide) (by decide)]
              have hW : List.map (fun e => (visitExpr e).1)
                  ((visitExpr r1).1 :: (visitExprs rs).1) =
                  (visitExpr r1).1 :: (visitExprs rs).1 := by
                have h' := hrest
                rw [visitExprs_fst ((visitExprs (r1 :: rs)).1)] at h'
                rwa [show (visitExprs (r1 :: rs)).1 =
                  (visitExpr r1).1 :: (visitExprs rs).1 from rfl] at h'
              have hlast :
                  (visitExpr (((visitExpr r1).1 :: (visitExprs rs).1).getLast
                    (List.cons_ne_nil (visitExpr r1).1 (visitExprs rs).1))).1 =
                  ((visitExpr r1).1 :: (visitExprs rs).1).getLast
                    (List.cons_ne_nil (visitExpr r1).1 (visitExprs rs).1) :=
                map_eq_self_forall _ _ hW _ (List.getLast_mem _)
              have hmid :
                  (visitExprs (((visitExpr r1).1 :: (visitExprs rs).1).dropLast)).1 =
                  ((visitExpr r1).1 :: (visitExprs rs).1).dropLast := by
                rw [visitExprs_fst, List.map_dropLast, hW]
              simp only [visitExprs, visitExpr]
              rw [hlast, hmid]
              rfl
            · rw [Bool.not_eq_true] at hok
              rw [visitExpr_call_fmt_errorf fn format r1 rs hnew hfmt hok,
                visitExpr_call_other errorfFun _ (by decide) (by decide)]
              simp only [visitExprs] at hrest
              simp only [visitExprs, visitExpr]
              rw [hrest]
              rfl
        · rw [Bool.not_eq_true] at hlit
          rw [visitExpr_call_fmt_nonlit fn a0 rest hnew hfmt hlit,
            visitExpr_call_fmt_nonlit (visitExpr fn).1 (visitExpr a0).1 (visitExprs rest).1
              (by rw [isPkgSelector_visitExpr]; exact hnew)
              (by rw [isPkgSelector_visitExpr]; exact hfmt)
              (by rw [isStringLit_visitExpr]; exact hlit)]
          rw [hfn, ha0, hrest]
      · rw [Bool.not_eq_true] at hfmt
        rw [visitExpr_call_other fn (a0 :: rest) hnew hfmt,
          visitExpr_call_other (visitExpr fn).1 (visitExprs (a0 :: rest)).1
            (by rw [isPkgSelector_visitExpr]; exact hnew)
            (by rw [isPkgSelector_visitExpr]; exact hfmt)]
        rw [hfn, hargs]
  | .otherE t es => by
    have hes := visitExprs_idem es
    simp only [visitExpr]
    rw [hes]

theorem visitExprs_idem : ∀ l : List Expr, (visitExprs (visitExprs l).1).1 = (visitExprs l).1
  | [] => rfl
  | e :: es => by
    have he := visitExpr_idem e
    have hes := visitExprs_idem es
    simp only [visitExprs]
    rw [he, hes]

theorem visitExprO_idem : ∀ o : Option Expr, (visitExprO (visitExprO o).1).1 = (visitExprO o).1
  | none => rfl
  | some e => by
    have he := visitExpr_idem e
    simp only [visitExprO]
    rw [he]

end

end Errfix


namespace Errfix

/-! Idempotence of the statement-level traversal. -/

theorem map_id_of_forall {α : Type} (f : α → α) :
    ∀ l : List α, (∀ x ∈ l, f x = x) → List.map f l = l := by
  intro l
  induction l with
  | nil => intro _; rfl
  | cons a as ih =>
    intro h
    rw [List.map_cons, h a (List.mem_cons_self a as), ih]
    intro x hx
    exact h x (List.mem_cons_of_mem a hx)

/-- Elements of a visited list are themselves fixed by the visit. -/
theorem mem_visitExprs_normal (l : List Expr) :
    ∀ x ∈ (visitExprs l).1, (visitExpr x).1 = x := by
  have h := visitExprs_idem l
  rw [visitExprs_fst ((visitExprs l).1)] at h
  exact map_eq_self_forall _ _ h

/-- A list of visit-fixed expressions is fixed by the list visit. -/
theorem visitExprs_fst_eq_self (l : List Expr)
    (h : ∀ x ∈ l, (visitExpr x).1 = x) : (visitExprs l).1 = l := by
  rw [visitExprs_fst]
  exact map_id_of_forall _ l h

/-- The last element of a visited list is the visit of the last. -/
theorem getLast_visitExprs (r : Expr) (rs : List Expr) :
    ((visitExpr r).1 :: (visitExprs rs).1).getLast
        (List.cons_ne_nil (visitExpr r).1 (visitExprs rs).1) =
      (visitExpr ((r :: rs).getLast (List.cons_ne_nil r rs))).1 := by
  induction rs generalizing r with
  | nil => rfl
  | cons r2 rs' ih => exact ih r2

theorem visitStmt_ret_cons_def (r : Expr) (rs : List Expr) :
    visitStmt (.ret (r :: rs)) =
      if isName ((r :: rs).getLast (List.cons_ne_nil r rs)) errIdent = true then
        (.ret (((visitExpr r).1 :: (visitExprs rs).1).dropLast ++ [withStackCall]),
         true)
      else
        (.ret ((visitExpr r).1 :: (visitExprs rs).1),
         (visitExpr r).2 || (visitExprs rs).2) := rfl

theorem visitStmt_ifS_binary_def (init : Option Stmt) (x : Expr) (op : BinOp)
    (y : Expr) (body : List Stmt) (els : Option Stmt) :
    visitStmt (.ifS init (.binary x op y) body els) =
      if compareErr x op y false = true then
        (.ifS (visitStmtO init).1 (.binary causeExpr op (visitExpr y).1)
          (visitStmts body).1 (visitStmtO els).1, true)
      else
        (.ifS (visitStmtO init).1 (visitIfCond x op y).1
          (visitStmts body).1 (visitStmtO els).1,
         (visitStmtO init).2 || (visitIfCond x op y).2 ||
           (visitStmts body).2 || (visitStmtO els).2) := rfl

theorem visitIfCond_binary_def (xx : Expr) (xop : BinOp) (xy : Expr) (op : BinOp)
    (yx : Expr) (yop : BinOp) (yy : Expr) :
    visitIfCond (.binary xx xop xy) op (.binary yx yop yy) =
      if ((op == .land || op == .lor) && compareErr xx xop xy true &&
          compareErr yx yop yy false) = true then
        (.binary (.binary xx xop xy) op (.binary causeExpr yop (visitExpr yy).1), true)
      else visitExpr (.binary (.binary xx xop xy) op (.binary yx yop yy)) := rfl

/-- Name tests on both operands survive the visit, so compareErr does. -/
theorem compareErr_visit (x : Expr) (op : BinOp) (y : Expr) (b : Bool) :
    compareErr (visitExpr x).1 op (visitExpr y).1 b = compareErr x op y b := by
  simp only [compareErr, isName_visitExpr]

/-- The inserted `errors.Cause(err)` call is not the identifier `err`. -/
theorem compareErr_causeExpr (op : BinOp) (y : Expr) (b : Bool) :
    compareErr causeExpr op y b = false := by
  simp [compareErr, show isName causeExpr errIdent = false from rfl]

/-- In a passing nil-comparison, both operands are the fixed idents. -/
theorem compareErr_nil_shape (x : Expr) (op : BinOp) (y : Expr)
    (h : compareErr x op y true = true) :
    x = .ident errIdent ∧ y = .ident nilIdent := by
  simp only [compareErr, if_true, Bool.and_eq_true] at h
  exact ⟨(isName_iff x errIdent).mp h.1.1, (isName_iff y nilIdent).mp h.2⟩

/-- The compound shape test survives the visit of both operands. -/
theorem ifCompound_visit (x : Expr) (op : BinOp) (y : Expr) :
    ifCompound (visitExpr x).1 op (visitExpr y).1 = ifCompound x op y := by
  cases x with
  | binary xx xop xy =>
    cases y with
    | binary yx yop yy =>
      show ifCompound (.binary (visitExpr xx).1 xop (visitExpr xy).1) op
        (.binary (visitExpr yx).1 yop (visitExpr yy).1) = _
      simp only [ifCompound, compareErr, isName_visitExpr]
    | call fn args =>
      obtain ⟨fn', args', h⟩ := visitExpr_call_shape fn args
      rw [h]; rfl
    | typeAssert a b =>
      obtain ⟨a', b', h⟩ := visitExpr_typeAssert_shape a b
      rw [h]; rfl
    | _ => rfl
  | call fn args =>
    obtain ⟨fn', args', h⟩ := visitExpr_call_shape fn args
    rw [h]; rfl
  | typeAssert a b =>
    obtain ⟨a', b', h⟩ := visitExpr_typeAssert_shape a b
    rw [h]; rfl
  | _ => rfl

/-- Without the compound shape, the condition is simply walked. -/
theorem visitIfCond_of_not_compound (x : Expr) (op : BinOp) (y : Expr)
    (h : ifCompound x op y = false) :
    visitIfCond x op y = visitExpr (.binary x op y) := by
  cases x with
  | binary xx xop xy =>
    cases y with
    | binary yx yop yy =>
      rw [visitIfCond_binary_def, if_neg]
      simp only [ifCompound] at h
      simp [h]
    | _ => rfl
  | _ => rfl

/-- The compound fix fires only between two binary operands. -/
theorem ifCompound_true_shape (x : Expr) (op : BinOp) (y : Expr)
    (h : ifCompound x op y = true) :
    ∃ xx xop xy yx yop yy, x = .binary xx xop xy ∧ y = .binary yx yop yy := by
  cases x with
  | binary xx xop xy =>
    cases y with
    | binary yx yop yy => exact ⟨xx, xop, xy, yx, yop, yy, rfl, rfl⟩
    | _ => simp [ifCompound] at h
  | _ => cases y <;> simp [ifCompound] at h

theorem visitIfCond_compound (xx : Expr) (xop : BinOp) (xy : Expr) (op : BinOp)
    (yx : Expr) (yop : BinOp) (yy : Expr)
    (h : ifCompound (.binary xx xop xy) op (.binary yx yop yy) = true) :
    visitIfCond (.binary xx xop xy) op (.binary yx yop yy) =
      (.binary (.binary xx xop xy) op (.binary causeExpr yop (visitExpr yy).1),
       true) := by
  rw [visitIfCond_binary_def, if_pos]
  simpa [ifCompound] using h

end Errfix

namespace Errfix

mutual

theorem visitStmt_idem : ∀ s : Stmt, (visitStmt (visitStmt s).1).1 = (visitStmt s).1
  | .ret [] => rfl
  | .ret (r :: rs) => by
    have hr := visitExpr_idem r
    have hrs := visitExprs_idem rs
    by_cases h : isName ((r :: rs).getLast (List.cons_ne_nil r rs)) errIdent = true
    · rw [visitStmt_ret_cons_def, if_pos h]
      have hWn : ∀ x ∈ (visitExpr r).1 :: (visitExprs rs).1, (visitExpr x).1 = x :=
        mem_visitExprs_normal (r :: rs)
      cases hd : ((visitExpr r).1 :: (visitExprs rs).1).dropLast with
      | nil => rfl
      | cons d ds =>
        show (visitStmt (.ret (d :: (ds ++ [withStackCall])))).1 =
          .ret (d :: (ds ++ [withStackCall]))
        rw [visitStmt_ret_cons_def, if_neg ?hne]
        case hne =>
          have hlast : (d :: (ds ++ [withStackCall])).getLast
              (List.cons_ne_nil d (ds ++ [withStackCall])) = withStackCall :=
            List.getLast_concat (d :: ds)
          rw [hlast]
          decide
        have hsub : d :: ds ⊆ (visitExpr r).1 :: (visitExprs rs).1 := by
          rw [← hd]
          exact List.dropLast_subset _
        have hdn : (visitExpr d).1 = d :=
          hWn d (hsub (List.mem_cons_self d ds))
        have hdsn : (visitExprs (ds ++ [withStackCall])).1 = ds ++ [withStackCall] := by
          apply visitExprs_fst_eq_self
          intro x hx
          rw [List.mem_append] at hx
          rcases hx with hx | hx
          · exact hWn x (hsub (List.mem_cons_of_mem d hx))
          · rw [List.mem_singleton] at hx
            subst hx
            rfl
        rw [hdn, hdsn]
    · rw [Bool.not_eq_true] at h
      rw [visitStmt_ret_cons_def, if_neg (by simp [h])]
      show (visitStmt (.ret ((visitExpr r).1 :: (visitExprs rs).1))).1 =
        .ret ((visitExpr r).1 :: (visitExprs rs).1)
      rw [visitStmt_ret_cons_def, if_neg ?hne2]
      case hne2 =>
        rw [getLast_visitExprs, isName_visitExpr]
        simp [h]
      show Stmt.ret ((visitExpr (visitExpr r).1).1 :: (visitExprs (visitExprs rs).1).1) =
        .ret ((visitExpr r).1 :: (visitExprs rs).1)
      rw [hr, hrs]
  | .ifS init cond body els => by
    have hinit := visitStmtO_idem init
    have hbody := visitStmts_idem body
    have hels := visitStmtO_idem els
    cases cond with
    | binary x op y =>
      have hy := visitExpr_idem y
      have hbin := visitExpr_idem (.binary x op y)
      by_cases hc : compareErr x op y false = true
      · rw [visitStmt_ifS_binary_def, if_pos hc,
          visitStmt_ifS_binary_def, if_neg (by simp [compareErr_causeExpr])]
        show (Stmt.ifS (visitStmtO (visitStmtO init).1).1
            (.binary (visitExpr causeExpr).1 op (visitExpr (visitExpr y).1).1)
            (visitStmts (visitStmts body).1).1 (visitStmtO (visitStmtO els).1).1) =
          .ifS (visitStmtO init).1 (.binary causeExpr op (visitExpr y).1)
            (visitStmts body).1 (visitStmtO els).1
        rw [visitExpr_causeExpr, hy, hinit, hbody, hels]
      · rw [Bool.not_eq_true] at hc
        rw [visitStmt_ifS_binary_def, if_neg (by simp [hc])]
        by_cases hcmp : ifCompound x op y = true
        · obtain ⟨xx, xop, xy, yx, yop, yy, rfl, rfl⟩ :=
            ifCompound_true_shape x op y hcmp
          have hyy := visitExpr_idem yy
          rw [visitIfCond_compound xx xop xy op yx yop yy hcmp]
          show (visitStmt (.ifS (visitStmtO init).1
              (.binary (.binary xx xop xy) op
                (.binary causeExpr yop (visitExpr yy).1))
              (visitStmts body).1 (visitStmtO els).1)).1 = _
          rw [visitStmt_ifS_binary_def,
            if_neg (by simp [compareErr,
              show isName (Expr.binary xx xop xy) errIdent = false from rfl])]
          have hcmp2 : ifCompound (.binary xx xop xy) op
              (.binary causeExpr yop (visitExpr yy).1) = false := by
            simp [ifCompound, compareErr_causeExpr]
          rw [visitIfCond_of_not_compound _ _ _ hcmp2]
          obtain ⟨hxx, hxy⟩ : xx = Expr.ident errIdent ∧ xy = Expr.ident nilIdent := by
            have h' : compareErr xx xop xy true = true := by
              simp only [ifCompound, Bool.and_eq_true] at hcmp
              exact hcmp.1.2
            exact compareErr_nil_shape xx xop xy h'
          subst hxx
          subst hxy
          show (Stmt.ifS (visitStmtO (visitStmtO init).1).1
              (.binary
                (.binary (visitExpr (.ident errIdent)).1 xop
                  (visitExpr (.ident nilIdent)).1) op
                (.binary (visitExpr causeExpr).1 yop (visitExpr (visitExpr yy).1).1))
              (visitStmts (visitStmts body).1).1 (visitStmtO (visitStmtO els).1).1) = _
          rw [visitExpr_causeExpr, hyy, hinit, hbody, hels]
          rfl
        · rw [Bool.not_eq_true] at hcmp
          rw [visitIfCond_of_not_compound x op y hcmp]
          show (visitStmt (.ifS (visitStmtO init).1
              (.binary (visitExpr x).1 op (visitExpr y).1)
              (visitStmts body).1 (visitStmtO els).1)).1 =
            .ifS (visitStmtO init).1 (.binary (visitExpr x).1 op (visitExpr y).1)
              (visitStmts body).1 (visitStmtO els).1
          rw [visitStmt_ifS_binary_def,
            if_neg (by rw [compareErr_visit]; simp [hc])]
          have hcmp2 : ifCompound (visitExpr x).1 op (visitExpr y).1 = false := by
            rw [ifCompound_visit]
            exact hcmp
          rw [visitIfCond_of_not_compound _ _ _ hcmp2]
          show Stmt.ifS (visitStmtO (visitStmtO init).1).1
              (visitExpr (visitExpr (.binary x op y)).1).1
              (visitStmts (visitStmts body).1).1 (visitStmtO (visitStmtO els).1).1 =
            .ifS (visitStmtO init).1 (visitExpr (.binary x op y)).1
              (visitStmts body).1 (visitStmtO els).1
          rw [hbin, hinit, hbody, hels]
    | ident n =>
      show (Stmt.ifS (visitStmtO (visitStmtO init).1).1 (.ident n)
          (visitStmts (visitStmts body).1).1 (visitStmtO (visitStmtO els).1).1) =
        .ifS (visitStmtO init).1 (.ident n) (visitStmts body).1 (visitStmtO els).1
      rw [hinit, hbody, hels]
    | basicLit k v =>
      show (Stmt.ifS (visitStmtO (visitStmtO init).1).1 (.basicLit k v)
          (visitStmts (visitStmts body).1).1 (visitStmtO (visitStmtO els).1).1) =
        .ifS (visitStmtO init).1 (.basicLit k v) (visitStmts body).1 (visitStmtO els).1
      rw [hinit, hbody, hels]
    | selector sx ss =>
      show (Stmt.ifS (visitStmtO (visitStmtO init).1).1
          (.selector (visitExpr (visitExpr sx).1).1 ss)
          (visitStmts (visitStmts body).1).1 (visitStmtO (visitStmtO els).1).1) =
        .ifS (visitStmtO init).1 (.selector (visitExpr sx).1 ss)
          (visitStmts body).1 (visitStmtO els).1
      rw [visitExpr_idem sx, hinit, hbody, hels]
    | call fn args =>
      have hcall := visitExpr_idem (.call fn args)
      obtain ⟨fn', args', hsh⟩ := visitExpr_call_shape fn args
      show (visitStmt (.ifS (visitStmtO init).1 ((visitExpr (.call fn args)).1)
          (visitStmts body).1 (visitStmtO els).1)).1 =
        .ifS (visitStmtO init).1 ((visitExpr (.call fn args)).1)
          (visitStmts body).1 (visitStmtO els).1
      rw [hsh]
      show (Stmt.ifS (visitStmtO (visitStmtO init).1).1
          (visitExpr (.call fn' args')).1
          (visitStmts (visitStmts body).1).1 (visitStmtO (visitStmtO els).1).1) =
        .ifS (visitStmtO init).1 (.call fn' args')
          (visitStmts body).1 (visitStmtO els).1
      rw [← hsh, hcall, hsh, hinit, hbody, hels]
    | typeAssert a b =>
      have hta := visitExpr_idem (.typeAssert a b)
      obtain ⟨a', b', hsh⟩ := visitExpr_typeAssert_shape a b
      show (visitStmt (.ifS (visitStmtO init).1 ((visitExpr (.typeAssert a b)).1)
          (visitStmts body).1 (visitStmtO els).1)).1 =
        .ifS (visitStmtO init).1 ((visitExpr (.typeAssert a b)).1)
          (visitStmts body).1 (visitStmtO els).1
      rw [hsh]
      show (Stmt.ifS (visitStmtO (visitStmtO init).1).1
          (visitExpr (.typeAssert a' b')).1
          (visitStmts (visitStmts body).1).1 (visitStmtO (visitStmtO els).1).1) =
        .ifS (visitStmtO init).1 (.typeAssert a' b')
          (visitStmts body).1 (visitStmtO els).1
      rw [← hsh, hta, hsh, hinit, hbody, hels]
    | otherE t es =>
      show (Stmt.ifS (visitStmtO (visitStmtO init).1).1
          (.otherE t (visitExprs (visitExprs es).1).1)
          (visitStmts (visitStmts body).1).1 (visitStmtO (visitStmtO els).1).1) =
        .ifS (visitStmtO init).1 (.otherE t (visitExprs es).1)
          (visitStmts body).1 (visitStmtO els).1
      rw [visitExprs_idem es, hinit, hbody, hels]
  | .otherS tag es ss => by
    have hes := visitExprs_idem es
    have hss := visitStmts_idem ss
    simp only [visitStmt]
    rw [hes, hss]

theorem visitStmts_idem : ∀ l : List Stmt, (visitStmts (visitStmts l).1).1 = (visitStmts l).1
  | [] => rfl
  | s :: ss => by
    have hs := visitStmt_idem s
    have hss := visitStmts_idem ss
    simp only [visitStmts]
    rw [hs, hss]

theorem visitStmtO_idem : ∀ o : Option Stmt, (visitStmtO (visitStmtO o).1).1 = (visitStmtO o).1
  | none => rfl
  | some s => by
    have hs := visitStmt_idem s
    simp only [visitStmtO]
    rw [hs]

end

end Errfix

namespace Errfix

/-! Declaration- and file-level idempotence, and stability of visited
trees under the import reconciliation of EndProcess. -/

theorem visitDecl_idem (d : Decl) : (visitDecl (visitDecl d).1).1 = (visitDecl d).1 := by
  cases d with
  | importD specs => rfl
  | funcD n body =>
    simp only [visitDecl]
    rw [visitStmts_idem body]
  | otherD es =>
    simp only [visitDecl]
    rw [visitExprs_idem es]

theorem visitDecls_idem (ds : List Decl) :
    (visitDecls (visitDecls ds).1).1 = (visitDecls ds).1 := by
  induction ds with
  | nil => rfl
  | cons d ds ih =>
    simp only [visitDecls]
    rw [visitDecl_idem d, ih]

theorem mem_visitDecls_normal (ds : List Decl) :
    ∀ d ∈ (visitDecls ds).1, (visitDecl d).1 = d := by
  have h := visitDecls_idem ds
  rw [visitDecls_fst ((visitDecls ds).1)] at h
  exact map_eq_self_forall _ _ h

theorem visitDecls_fst_eq_self (ds : List Decl)
    (h : ∀ d ∈ ds, (visitDecl d).1 = d) : (visitDecls ds).1 = ds := by
  rw [visitDecls_fst]
  exact map_id_of_forall _ ds h

/-- Replacing the "errors" import spec keeps every declaration fixed
under the traversal (import groupings are inert to it). -/
theorem replaceErrorsDecls_normal (ds : List Decl)
    (h : ∀ d ∈ ds, (visitDecl d).1 = d) :
    ∀ d ∈ replaceErrorsDecls ds, (visitDecl d).1 = d := by
  induction ds with
  | nil => intro d hd; cases hd
  | cons d0 ds ih =>
    intro d hd
    cases d0 with
    | importD specs =>
      rw [show replaceErrorsDecls (.importD specs :: ds) =
        match replaceErrorsSpec specs with
        | some specs' => .importD specs' :: ds
        | none => .importD specs :: replaceErrorsDecls ds from rfl] at hd
      cases hrs : replaceErrorsSpec specs with
      | some specs' =>
        rw [hrs] at hd
        rw [List.mem_cons] at hd
        rcases hd with rfl | hd
        · rfl
        · exact h d (List.mem_cons_of_mem _ hd)
      | none =>
        rw [hrs] at hd
        rw [List.mem_cons] at hd
        rcases hd with rfl | hd
        · rfl
        · exact ih (fun x hx => h x (List.mem_cons_of_mem _ hx)) d hd
    | funcD n body =>
      rw [show replaceErrorsDecls (.funcD n body :: ds) =
        .funcD n body :: replaceErrorsDecls ds from rfl] at hd
      rw [List.mem_cons] at hd
      rcases hd with rfl | hd
      · exact h _ (List.mem_cons_self _ _)
      · exact ih (fun x hx => h x (List.mem_cons_of_mem _ hx)) d hd
    | otherD es =>
      rw [show replaceErrorsDecls (.otherD es :: ds) =
        .otherD es :: replaceErrorsDecls ds from rfl] at hd
      rw [List.mem_cons] at hd
      rcases hd with rfl | hd
      · exact h _ (List.mem_cons_self _ _)
      · exact ih (fun x hx => h x (List.mem_cons_of_mem _ hx)) d hd

theorem appendToFirstImport_normal (ds : List Decl)
    (h : ∀ d ∈ ds, (visitDecl d).1 = d) :
    ∀ ds', appendToFirstImport ds = some ds' →
      ∀ d ∈ ds', (visitDecl d).1 = d := by
  induction ds with
  | nil => intro ds' hds'; cases hds'
  | cons d0 ds ih =>
    intro ds' hds' d hd
    cases d0 with
    | importD specs =>
      rw [show appendToFirstImport (.importD specs :: ds) =
        some (.importD (specs ++ [⟨none, pkgPath⟩]) :: ds) from rfl] at hds'
      cases hds'
      rw [List.mem_cons] at hd
      rcases hd with rfl | hd
      · rfl
      · exact h d (List.mem_cons_of_mem _ hd)
    | funcD n body =>
      rw [show appendToFirstImport (.funcD n body :: ds) =
        (appendToFirstImport ds).map (.funcD n body :: ·) from rfl] at hds'
      cases hafi : appendToFirstImport ds with
      | none => rw [hafi] at hds'; cases hds'
      | some ds'' =>
        rw [hafi] at hds'
        cases hds'
        rw [List.mem_cons] at hd
        rcases hd with rfl | hd
        · exact h _ (List.mem_cons_self _ _)
        · exact ih (fun x hx => h x (List.mem_cons_of_mem _ hx)) ds'' hafi d hd
    | otherD es =>
      rw [show appendToFirstImport (.otherD es :: ds) =
        (appendToFirstImport ds).map (.otherD es :: ·) from rfl] at hds'
      cases hafi : appendToFirstImport ds with
      | none => rw [hafi] at hds'; cases hds'
      | some ds'' =>
        rw [hafi] at hds'
        cases hds'
        rw [List.mem_cons] at hd
        rcases hd with rfl | hd
        · exact h _ (List.mem_cons_self _ _)
        · exact ih (fun x hx => h x (List.mem_cons_of_mem _ hx)) ds'' hafi d hd

theorem addImportDecls_normal (ds : List Decl)
    (h : ∀ d ∈ ds, (visitDecl d).1 = d) :
    ∀ d ∈ addImportDecls ds, (visitDecl d).1 = d := by
  intro d hd
  unfold addImportDecls at hd
  cases hafi : appendToFirstImport ds with
  | some ds' =>
    rw [hafi] at hd
    exact appendToFirstImport_normal ds h ds' hafi d hd
  | none =>
    rw [hafi] at hd
    rw [List.mem_cons] at hd
    rcases hd with rfl | hd
    · rfl
    · exact h d hd

/-- After EndProcess, the tree is still fixed by the traversal when it
was before: the import edits touch only inert import groupings. -/
theorem visitFile_endProcess_fst (c : Bool) (f : GoFile)
    (h : ∀ d ∈ f.decls, (visitDecl d).1 = d) :
    (visitFile (EndProcess c f).1).1 = (EndProcess c f).1 := by
  unfold EndProcess
  by_cases hc : c = true
  · subst hc
    rw [if_neg (by decide)]
    by_cases h1 : hasImportPath f pkgPath = true
    · rw [if_pos h1]
      show (⟨f.pkg, (visitDecls f.decls).1⟩ : GoFile) = f
      rw [visitDecls_fst_eq_self f.decls h]
    · rw [if_neg h1]
      by_cases h2 : hasImportPath f "errors" = true
      · rw [if_pos h2]
        show (⟨f.pkg, (visitDecls (replaceErrorsDecls f.decls)).1⟩ : GoFile) = _
        rw [visitDecls_fst_eq_self _ (replaceErrorsDecls_normal f.decls h)]
      · rw [if_neg h2]
        show (⟨f.pkg, (visitDecls (addImportDecls f.decls)).1⟩ : GoFile) = _
        rw [visitDecls_fst_eq_self _ (addImportDecls_normal f.decls h)]
  · rw [Bool.not_eq_true] at hc
    subst hc
    rw [if_pos (by decide)]
    show (⟨f.pkg, (visitDecls f.decls).1⟩ : GoFile) = f
    rw [visitDecls_fst_eq_self f.decls h]

end Errfix

namespace Errfix

/-! Counting occurrences of an import path, for the exactly-once
property of the import coordinator. -/

/-- Occurrences of a path in one import grouping. -/
def countSpecs (specs : List ImportSpec) (p : String) : Nat :=
  specs.countP (fun s => s.path == p)

/-- Occurrences of a path across all import groupings of a
declaration list. -/
def countDecls (ds : List Decl) (p : String) : Nat :=
  match ds with
  | [] => 0
  | .importD specs :: ds => countSpecs specs p + countDecls ds p
  | _ :: ds => countDecls ds p

/-- Occurrences of a path in the file's import table. -/
def countImportPath (f : GoFile) (p : String) : Nat :=
  countDecls f.decls p

theorem hasImportPath_iff_count (f : GoFile) (p : String) :
    hasImportPath f p = true ↔ 0 < countImportPath f p := by
  show ((((getImports f).flatMap id).find? fun s => s.path == p)).isSome = true ↔ _
  rw [List.find?_isSome]
  rw [show countImportPath f p = countDecls f.decls p from rfl]
  show (∃ x ∈ (getImports f).flatMap id, x.path == p) ↔ _
  rw [show getImports f = f.decls.filterMap (fun d =>
    match d with | .importD specs => some specs | _ => none) from rfl]
  induction f.decls with
  | nil => simp [countDecls]
  | cons d ds ih =>
    cases d with
    | importD specs =>
      simp only [List.filterMap_cons, List.flatMap_cons, id, countDecls]
      constructor
      · rintro ⟨x, hx, hpx⟩
        rw [List.mem_append] at hx
        rcases hx with hx | hx
        · have hpos : 0 < countSpecs specs p :=
            List.countP_pos_iff.mpr ⟨x, hx, hpx⟩
          omega
        · have hpos : 0 < countDecls ds p := ih.mp ⟨x, hx, hpx⟩
          omega
      · intro hn
        by_cases hs : 0 < countSpecs specs p
        · obtain ⟨x, hx, hpx⟩ := List.countP_pos_iff.mp hs
          exact ⟨x, List.mem_append_left _ hx, hpx⟩
        · have hpos : 0 < countDecls ds p := by omega
          obtain ⟨x, hx, hpx⟩ := ih.mpr hpos
          exact ⟨x, List.mem_append_right _ hx, hpx⟩
    | funcD n body =>
      simp only [List.filterMap_cons, countDecls]
      exact ih
    | otherD es =>
      simp only [List.filterMap_cons, countDecls]
      exact ih

/-- A successful replacement adds one occurrence of the wrap path. -/
theorem countSpecs_replaceErrorsSpec (specs specs' : List ImportSpec)
    (h : replaceErrorsSpec specs = some specs') :
    countSpecs specs' pkgPath = countSpecs specs pkgPath + 1 := by
  induction specs generalizing specs' with
  | nil => cases h
  | cons s ss ih =>
    rw [show replaceErrorsSpec (s :: ss) =
      if s.path == "errors" then some (⟨none, pkgPath⟩ :: ss)
      else (replaceErrorsSpec ss).map (s :: ·) from rfl] at h
    by_cases hs : (s.path == "errors") = true
    · rw [if_pos hs] at h
      cases h
      have hsp : (s.path == pkgPath) = false := by
        have hs' : s.path = "errors" := by simpa using hs
        rw [hs']
        decide
      simp [countSpecs, List.countP_cons, hsp]
    · rw [if_neg (by simp [hs])] at h
      cases hrs : replaceErrorsSpec ss with
      | none => rw [hrs] at h; cases h
      | some ss' =>
        rw [hrs] at h
        cases h
        simp only [countSpecs, List.countP_cons] at *
        rw [ih ss' hrs]
        omega

/-- A failed replacement means no "errors" spec was present. -/
theorem replaceErrorsSpec_none (specs : List ImportSpec)
    (h : replaceErrorsSpec specs = none) :
    countSpecs specs "errors" = 0 := by
  induction specs with
  | nil => rfl
  | cons s ss ih =>
    rw [show replaceErrorsSpec (s :: ss) =
      if s.path == "errors" then some (⟨none, pkgPath⟩ :: ss)
      else (replaceErrorsSpec ss).map (s :: ·) from rfl] at h
    by_cases hs : (s.path == "errors") = true
    · rw [if_pos hs] at h; cases h
    · rw [if_neg (by simp [hs])] at h
      cases hrs : replaceErrorsSpec ss with
      | some ss' => rw [hrs] at h; cases h
      | none =>
        have h0 : countSpecs ss "errors" = 0 := ih hrs
        simp only [countSpecs, List.countP_cons] at h0 ⊢
        simp [hs, h0]

/-- Replacing the standard import adds one wrap-path occurrence when an
"errors" spec exists somewhere. -/
theorem countDecls_replaceErrorsDecls (ds : List Decl)
    (h : 0 < countDecls ds "errors") :
    countDecls (replaceErrorsDecls ds) pkgPath = countDecls ds pkgPath + 1 := by
  induction ds with
  | nil => simp [countDecls] at h
  | cons d ds ih =>
    cases d with
    | importD specs =>
      rw [show replaceErrorsDecls (.importD specs :: ds) =
        match replaceErrorsSpec specs with
        | some specs' => .importD specs' :: ds
        | none => .importD specs :: replaceErrorsDecls ds from rfl]
      cases hrs : replaceErrorsSpec specs with
      | some specs' =>
        show countSpecs specs' pkgPath + countDecls ds pkgPath =
          countSpecs specs pkgPath + countDecls ds pkgPath + 1
        rw [countSpecs_replaceErrorsSpec specs specs' hrs]
        omega
      | none =>
        show countSpecs specs pkgPath + countDecls (replaceErrorsDecls ds) pkgPath =
          countSpecs specs pkgPath + countDecls ds pkgPath + 1
        have hz := replaceErrorsSpec_none specs hrs
        have hds : 0 < countDecls ds "errors" := by
          have heq : countDecls (Decl.importD specs :: ds) "errors" =
            countSpecs specs "errors" + countDecls ds "errors" := rfl
          omega
        rw [ih hds]
        omega
    | funcD n body =>
      show countDecls (replaceErrorsDecls ds) pkgPath = countDecls ds pkgPath + 1
      exact ih h
    | otherD es =>
      show countDecls (replaceErrorsDecls ds) pkgPath = countDecls ds pkgPath + 1
      exact ih h

theorem countDecls_appendToFirstImport (ds ds' : List Decl)
    (h : appendToFirstImport ds = some ds') :
    countDecls ds' pkgPath = countDecls ds pkgPath + 1 := by
  induction ds generalizing ds' with
  | nil => cases h
  | cons d ds ih =>
    cases d with
    | importD specs =>
      rw [show appendToFirstImport (.importD specs :: ds) =
        some (.importD (specs ++ [⟨none, pkgPath⟩]) :: ds) from rfl] at h
      cases h
      show countSpecs (specs ++ [⟨none, pkgPath⟩]) pkgPath + countDecls ds pkgPath =
        countSpecs specs pkgPath + countDecls ds pkgPath + 1
      rw [show countSpecs (specs ++ [⟨none, pkgPath⟩]) pkgPath =
        countSpecs specs pkgPath + countSpecs [⟨none, pkgPath⟩] pkgPath from
        List.countP_append _ _ _]
      rw [show countSpecs [(⟨none, pkgPath⟩ : ImportSpec)] pkgPath = 1 from by decide]
      omega
    | funcD n body =>
      rw [show appendToFirstImport (.funcD n body :: ds) =
        (appendToFirstImport ds).map (.funcD n body :: ·) from rfl] at h
      cases hafi : appendToFirstImport ds with
      | none => rw [hafi] at h; cases h
      | some ds'' =>
        rw [hafi] at h
        cases h
        show countDecls ds'' pkgPath = countDecls ds pkgPath + 1
        exact ih ds'' hafi
    | otherD es =>
      rw [show appendToFirstImport (.otherD es :: ds) =
        (appendToFirstImport ds).map (.otherD es :: ·) from rfl] at h
      cases hafi : appendToFirstImport ds with
      | none => rw [hafi] at h; cases h
      | some ds'' =>
        rw [hafi] at h
        cases h
        show countDecls ds'' pkgPath = countDecls ds pkgPath + 1
        exact ih ds'' hafi

theorem countDecls_addImportDecls (ds : List Decl) :
    countDecls (addImportDecls ds) pkgPath = countDecls ds pkgPath + 1 := by
  unfold addImportDecls
  cases hafi : appendToFirstImport ds with
  | some ds' => exact countDecls_appendToFirstImport ds ds' hafi
  | none =>
    show countSpecs [⟨none, pkgPath⟩] pkgPath + countDecls ds pkgPath =
      countDecls ds pkgPath + 1
    rw [show countSpecs [(⟨none, pkgPath⟩ : ImportSpec)] pkgPath = 1 from by decide]
    omega

/-- EndProcess with the changed flag set leaves exactly one wrap-path
occurrence when at most one import of it was present before. -/
theorem endProcess_count_one (f : GoFile)
    (h : countImportPath f pkgPath ≤ 1) :
    countImportPath (EndProcess true f).1 pkgPath = 1 := by
  unfold EndProcess
  rw [if_neg (by decide)]
  by_cases h1 : hasImportPath f pkgPath = true
  · rw [if_pos h1]
    have hpos := (hasImportPath_iff_count f pkgPath).mp h1
    show countImportPath f pkgPath = 1
    omega
  · have hz : countImportPath f pkgPath = 0 := by
      by_contra hnz
      exact h1 ((hasImportPath_iff_count f pkgPath).mpr (by omega))
    rw [if_neg h1]
    by_cases h2 : hasImportPath f "errors" = true
    · rw [if_pos h2]
      show countDecls (replaceErrorsDecls f.decls) pkgPath = 1
      rw [countDecls_replaceErrorsDecls f.decls
        ((hasImportPath_iff_count f "errors").mp h2)]
      rw [show countDecls f.decls pkgPath = countImportPath f pkgPath from rfl, hz]
    · rw [if_neg h2]
      show countDecls (addImportDecls f.decls) pkgPath = 1
      rw [countDecls_addImportDecls f.decls]
      rw [show countDecls f.decls pkgPath = countImportPath f pkgPath from rfl, hz]

/-- EndProcess with the changed flag set always leaves the wrap path
imported. -/
theorem hasImportPath_endProcess (f : GoFile) :
    hasImportPath (EndProcess true f).1 pkgPath = true := by
  unfold EndProcess
  rw [if_neg (by decide)]
  by_cases h1 : hasImportPath f pkgPath = true
  · rw [if_pos h1]
    exact h1
  · rw [if_neg h1]
    by_cases h2 : hasImportPath f "errors" = true
    · rw [if_pos h2]
      apply (hasImportPath_iff_count _ pkgPath).mpr
      show 0 < countDecls (replaceErrorsDecls f.decls) pkgPath
      rw [countDecls_replaceErrorsDecls f.decls
        ((hasImportPath_iff_count f "errors").mp h2)]
      omega
    · rw [if_neg h2]
      apply (hasImportPath_iff_count _ pkgPath).mpr
      show 0 < countDecls (addImportDecls f.decls) pkgPath
      rw [countDecls_addImportDecls f.decls]
      omega

end Errfix

namespace Errfix

/-! Process-level consequences: no-op preservation and content
idempotence. -/

theorem process_def (parse : String → Option GoFile) (render : GoFile → String)
    (f : File) :
    Process parse render f =
      match parse f.content with
      | none => none
      | some df =>
        if (runRule df).2 = true then some ⟨f.name, render (runRule df).1, none⟩
        else some ⟨f.name, f.content, none⟩ := rfl

/-- A parsed file in which the traversal reports no change is returned
with its original name and content, no error, and independently of the
render capability (the tree is never rendered). -/
theorem process_no_change (parse : String → Option GoFile) (f : File) (t : GoFile)
    (hp : parse f.content = some t) (hc : (visitFile t).2 = false) :
    ∀ render : GoFile → String,
      Process parse render f = some ⟨f.name, f.content, none⟩ := by
  intro render
  have hrr : (runRule t).2 = false := by
    show (EndProcess (visitFile t).2 (visitFile t).1).2 = false
    rw [hc]
    rfl
  rw [process_def, hp]
  show (if (runRule t).2 = true then
      some (File.mk f.name (render (runRule t).1) none)
    else some (File.mk f.name f.content none)) = some (File.mk f.name f.content none)
  rw [if_neg (by simp [hrr])]

/-- Helper: the tree produced by runRule is a fixed point of runRule's
tree component. -/
theorem runRule_fst_fixpoint (t : GoFile) (hc : (runRule t).2 = true) :
    (runRule (runRule t).1).1 = (runRule t).1 := by
  have hcv : (visitFile t).2 = true := by
    by_contra h'
    rw [Bool.not_eq_true] at h'
    have hf : (runRule t).2 = false := by
      show (EndProcess (visitFile t).2 (visitFile t).1).2 = false
      rw [h']
      rfl
    rw [hf] at hc
    cases hc
  have hnorm : ∀ d ∈ (visitFile t).1.decls, (visitDecl d).1 = d :=
    mem_visitDecls_normal t.decls
  have hvf : (visitFile (runRule t).1).1 = (runRule t).1 :=
    visitFile_endProcess_fst (visitFile t).2 (visitFile t).1 hnorm
  show (EndProcess (visitFile (runRule t).1).2 (visitFile (runRule t).1).1).1 =
    (runRule t).1
  rw [hvf]
  by_cases hc' : (visitFile (runRule t).1).2 = true
  · rw [hc']
    have hhas : hasImportPath (runRule t).1 pkgPath = true := by
      show hasImportPath (EndProcess (visitFile t).2 (visitFile t).1).1 pkgPath = true
      rw [hcv]
      exact hasImportPath_endProcess (visitFile t).1
    unfold EndProcess
    rw [if_neg (by decide), if_pos hhas]
  · rw [Bool.not_eq_true] at hc'
    rw [hc']
    rfl

/-- Running Process on its own output reproduces the same content,
whenever re-parsing a rendered tree gives that tree back (the
formatting-preserving round trip of the syntax tree model). -/
theorem process_content_idem (parse : String → Option GoFile)
    (render : GoFile → String) (f f1 f2 : File)
    (h1 : Process parse render f = some f1)
    (h2 : Process parse render f1 = some f2)
    (hpr : ∀ t, parse f.content = some t →
      parse (render (runRule t).1) = some (runRule t).1) :
    f2.content = f1.content := by
  rw [process_def] at h1
  cases hp : parse f.content with
  | none =>
    rw [hp] at h1
    cases h1
  | some t =>
    rw [hp] at h1
    replace h1 : (if (runRule t).2 = true then
        some (File.mk f.name (render (runRule t).1) none)
      else some (File.mk f.name f.content none)) = some f1 := h1
    by_cases hc : (runRule t).2 = true
    · rw [if_pos hc] at h1
      have hf1 : f1 = File.mk f.name (render (runRule t).1) none := by
        cases h1
        rfl
      subst hf1
      rw [process_def] at h2
      replace h2 : (match parse (render (runRule t).1) with
        | none => none
        | some df =>
          if (runRule df).2 = true then
            some (File.mk f.name (render (runRule df).1) none)
          else some (File.mk f.name (render (runRule t).1) none)) = some f2 := h2
      rw [hpr t hp] at h2
      replace h2 : (if (runRule (runRule t).1).2 = true then
          some (File.mk f.name (render (runRule (runRule t).1).1) none)
        else some (File.mk f.name (render (runRule t).1) none)) = some f2 := h2
      by_cases hc2 : (runRule (runRule t).1).2 = true
      · rw [if_pos hc2] at h2
        have hf2 : f2 = File.mk f.name (render (runRule (runRule t).1).1) none := by
          cases h2
          rfl
        subst hf2
        show render (runRule (runRule t).1).1 = render (runRule t).1
        rw [runRule_fst_fixpoint t hc]
      · rw [if_neg hc2] at h2
        have hf2 : f2 = File.mk f.name (render (runRule t).1) none := by
          cases h2
          rfl
        subst hf2
        rfl
    · rw [if_neg hc] at h1
      have hf1 : f1 = File.mk f.name f.content none := by
        cases h1
        rfl
      subst hf1
      rw [process_def] at h2
      replace h2 : (match parse f.content with
        | none => none
        | some df =>
          if (runRule df).2 = true then
            some (File.mk f.name (render (runRule df).1) none)
          else some (File.mk f.name f.content none)) = some f2 := h2
      rw [hp] at h2
      replace h2 : (if (runRule t).2 = true then
          some (File.mk f.name (render (runRule t).1) none)
        else some (File.mk f.name f.content none)) = some f2 := h2
      rw [if_neg hc] at h2
      have hf2 : f2 = File.mk f.name f.content none := by
        cases h2
        rfl
      subst hf2
      rfl

end Errfix

namespace Errfix

/-! The in-place rewrite of the standard "errors" import. -/

/-- Whether a declaration is an import grouping. -/
def Decl.isImp : Decl → Bool
  | .importD _ => true
  | _ => false

theorem countDecls_append (a b : List Decl) (p : String) :
    countDecls (a ++ b) p = countDecls a p + countDecls b p := by
  induction a with
  | nil => simp [countDecls]
  | cons d ds ih =>
    cases d with
    | importD specs =>
      show countSpecs specs p + countDecls (ds ++ b) p = _
      rw [ih]
      show _ = countSpecs specs p + countDecls ds p + countDecls b p
      omega
    | funcD n body =>
      show countDecls (ds ++ b) p = countDecls (ds) p + countDecls b p
      exact ih
    | otherD es =>
      show countDecls (ds ++ b) p = countDecls ds p + countDecls b p
      exact ih

/-- With no earlier "errors" spec in the grouping, the rewrite hits
exactly the "errors" spec, clears its alias and re-points its path. -/
theorem replaceErrorsSpec_shape (pre post : List ImportSpec) (al : Option String)
    (hpre : ∀ s ∈ pre, s.path ≠ "errors") :
    replaceErrorsSpec (pre ++ ⟨al, "errors"⟩ :: post) =
      some (pre ++ ⟨none, pkgPath⟩ :: post) := by
  induction pre with
  | nil => rfl
  | cons s ss ih =>
    show (if s.path == "errors" then
        some (⟨none, pkgPath⟩ :: (ss ++ ⟨al, "errors"⟩ :: post))
      else (replaceErrorsSpec (ss ++ ⟨al, "errors"⟩ :: post)).map (s :: ·)) =
      some (s :: (ss ++ ⟨none, pkgPath⟩ :: post))
    rw [if_neg (by simp [hpre s (List.mem_cons_self s ss)])]
    rw [ih (fun x hx => hpre x (List.mem_cons_of_mem s hx))]
    rfl

/-- With no earlier import grouping and no earlier "errors" spec, the
declaration-level rewrite is exactly the in-place spec rewrite. -/
theorem replaceErrorsDecls_shape (ds0 : List Decl) (pre post : List ImportSpec)
    (al : Option String) (rest : List Decl)
    (h0 : ∀ d ∈ ds0, d.isImp = false)
    (hpre : ∀ s ∈ pre, s.path ≠ "errors") :
    replaceErrorsDecls (ds0 ++ .importD (pre ++ ⟨al, "errors"⟩ :: post) :: rest) =
      ds0 ++ .importD (pre ++ ⟨none, pkgPath⟩ :: post) :: rest := by
  induction ds0 with
  | nil =>
    rw [show replaceErrorsDecls ([] ++ .importD (pre ++ ⟨al, "errors"⟩ :: post) :: rest) =
      (match replaceErrorsSpec (pre ++ ⟨al, "errors"⟩ :: post) with
       | some specs' => Decl.importD specs' :: rest
       | none => Decl.importD (pre ++ ⟨al, "errors"⟩ :: post) ::
           replaceErrorsDecls rest) from rfl]
    rw [replaceErrorsSpec_shape pre post al hpre]
    rfl
  | cons d ds0 ih =>
    cases d with
    | importD specs =>
      have := h0 (.importD specs) (List.mem_cons_self _ _)
      simp [Decl.isImp] at this
    | funcD n body =>
      rw [show replaceErrorsDecls ((Decl.funcD n body :: ds0) ++
          .importD (pre ++ ⟨al, "errors"⟩ :: post) :: rest) =
        Decl.funcD n body :: replaceErrorsDecls (ds0 ++
          .importD (pre ++ ⟨al, "errors"⟩ :: post) :: rest) from rfl]
      rw [ih (fun x hx => h0 x (List.mem_cons_of_mem _ hx))]
      rfl
    | otherD es =>
      rw [show replaceErrorsDecls ((Decl.otherD es :: ds0) ++
          .importD (pre ++ ⟨al, "errors"⟩ :: post) :: rest) =
        Decl.otherD es :: replaceErrorsDecls (ds0 ++
          .importD (pre ++ ⟨al, "errors"⟩ :: post) :: rest) from rfl]
      rw [ih (fun x hx => h0 x (List.mem_cons_of_mem _ hx))]
      rfl

/-- EndProcess on a changed file with no wrap-library import and a
standard "errors" import: the spec is rewritten in place (position
kept, alias dropped), everything else untouched. -/
theorem endProcess_replace_errors (pk : String) (ds0 : List Decl)
    (pre post : List ImportSpec) (al : Option String) (rest : List Decl)
    (h0 : ∀ d ∈ ds0, d.isImp = false)
    (hpre : ∀ s ∈ pre, s.path ≠ "errors")
    (hno : hasImportPath
      ⟨pk, ds0 ++ .importD (pre ++ ⟨al, "errors"⟩ :: post) :: rest⟩ pkgPath = false) :
    EndProcess true ⟨pk, ds0 ++ .importD (pre ++ ⟨al, "errors"⟩ :: post) :: rest⟩ =
      (⟨pk, ds0 ++ .importD (pre ++ ⟨none, pkgPath⟩ :: post) :: rest⟩, true) := by
  unfold EndProcess
  rw [if_neg (by decide), if_neg (by simp [hno]), if_pos ?hhas]
  case hhas =>
    apply (hasImportPath_iff_count _ _).mpr
    show 0 < countDecls (ds0 ++ .importD (pre ++ ⟨al, "errors"⟩ :: post) :: rest) "errors"
    rw [countDecls_append]
    have hone : 0 < countDecls (Decl.importD (pre ++ ⟨al, "errors"⟩ :: post) :: rest) "errors" := by
      show 0 < countSpecs (pre ++ ⟨al, "errors"⟩ :: post) "errors" +
        countDecls rest "errors"
      have : 0 < countSpecs (pre ++ ⟨al, "errors"⟩ :: post) "errors" := by
        apply List.countP_pos_iff.mpr
        exact ⟨⟨al, "errors"⟩, List.mem_append_right _ (List.mem_cons_self _ _), rfl⟩
      omega
    omega
  show (GoFile.mk pk
      (replaceErrorsDecls (ds0 ++ .importD (pre ++ ⟨al, "errors"⟩ :: post) :: rest)),
      true) = _
  rw [replaceErrorsDecls_shape ds0 pre post al rest h0 hpre]

end Errfix

namespace Errfix

/-! The claims. -/

/-- The original call target `fmt.Errorf`. -/
def fmtErrorf : Expr := .selector (.ident fmtIdent) errorfIdent

theorem fixIfStmt_binary_def (x : Expr) (op : BinOp) (y : Expr) :
    fixIfStmt (.binary x op y) =
      if compareErr x op y false = true then (.binary causeExpr op y, true)
      else fixIfCompound x op y := rfl

theorem fixIfCompound_binary_def (xx : Expr) (xop : BinOp) (xy : Expr) (op : BinOp)
    (yx : Expr) (yop : BinOp) (yy : Expr) :
    fixIfCompound (.binary xx xop xy) op (.binary yx yop yy) =
      if ((op == .land || op == .lor) && compareErr xx xop xy true &&
          compareErr yx yop yy false) = true then
        (.binary (.binary xx xop xy) op (.binary causeExpr yop yy), true)
      else (.binary (.binary xx xop xy) op (.binary yx yop yy), false) := rfl

theorem fixCallExpr_fmt_cons_def (format : String) (r1 : Expr) (rs : List Expr) :
    fixCallExpr fmtErrorf (.basicLit .str format :: r1 :: rs) =
      if (isName ((r1 :: rs).getLast (List.cons_ne_nil r1 rs)) errIdent &&
          endsInPctV format) = true then
        ((wrapfFun,
          (r1 :: rs).getLast (List.cons_ne_nil r1 rs)
            :: .basicLit .str (trimVerb format) :: (r1 :: rs).dropLast), true)
      else ((errorfFun, .basicLit .str format :: r1 :: rs), true) := rfl

/-- C1: a return statement with at least one result whose last result
is exactly the identifier `err` has that last result replaced by
`errors.WithStack(err)` with all earlier results unchanged; a return
whose last result is any other expression (`nil` included), and a
zero-result return, are left unchanged. -/
theorem claim_C1 (rs : List Expr) (e : Expr) :
    fixReturnStmt (rs ++ [.ident errIdent]) = (rs ++ [withStackCall], true)
  ∧ (isName e errIdent = false →
      fixReturnStmt (rs ++ [e]) = (rs ++ [e], false))
  ∧ fixReturnStmt [] = ([], false) := by
  refine ⟨?_, ?_, rfl⟩
  · unfold fixReturnStmt
    rw [List.getLast?_concat]
    show (if isName (Expr.ident errIdent) errIdent = true then
        ((rs ++ [Expr.ident errIdent]).dropLast ++ [withStackCall], true)
      else (rs ++ [Expr.ident errIdent], false)) = _
    rw [if_pos (show isName (Expr.ident errIdent) errIdent = true from rfl),
      List.dropLast_concat]
  · intro h
    unfold fixReturnStmt
    rw [List.getLast?_concat]
    show (if isName e errIdent = true then
        ((rs ++ [e]).dropLast ++ [withStackCall], true)
      else (rs ++ [e], false)) = _
    rw [if_neg (by simp [h])]

theorem claim_C1_witness :
    isName (.ident nilIdent) errIdent = false
  ∧ fixReturnStmt [.basicLit (.otherKind "INT") "1", .ident errIdent] =
      ([.basicLit (.otherKind "INT") "1", withStackCall], true)
  ∧ fixReturnStmt [.basicLit (.otherKind "INT") "1", .ident nilIdent] =
      ([.basicLit (.otherKind "INT") "1", .ident nilIdent], false) := by
  refine ⟨rfl, ?_, ?_⟩
  · exact (claim_C1 [Expr.basicLit (.otherKind "INT") "1"] (.ident nilIdent)).1
  · exact (claim_C1 [Expr.basicLit (.otherKind "INT") "1"] (.ident nilIdent)).2.1 rfl

/-- C2: an if condition `err == X` or `err != X` with X not the nil
literal has its left operand rewritten to `errors.Cause(err)` with
nothing else changed; `err ==/!= nil` alone is never rewritten; and in
the compound `err != nil && err != X` (or the `||` variant) with X not
nil, only the second clause's left operand is rewritten. -/
theorem claim_C2 (op lop : BinOp) (y : Expr)
    (hop : op = .eql ∨ op = .neq) (hlop : lop = .land ∨ lop = .lor)
    (hy : isName y nilIdent = false) :
    fixIfStmt (.binary (.ident errIdent) op y) = (.binary causeExpr op y, true)
  ∧ fixIfStmt (.binary (.ident errIdent) op (.ident nilIdent)) =
      (.binary (.ident errIdent) op (.ident nilIdent), false)
  ∧ fixIfStmt (.binary (.binary (.ident errIdent) .neq (.ident nilIdent)) lop
        (.binary (.ident errIdent) .neq y)) =
      (.binary (.binary (.ident errIdent) .neq (.ident nilIdent)) lop
        (.binary causeExpr .neq y), true) := by
  refine ⟨?_, ?_, ?_⟩
  · rw [fixIfStmt_binary_def, if_pos ?c1]
    case c1 =>
      show ((isName (Expr.ident errIdent) errIdent && (op == BinOp.eql || op == BinOp.neq)) &&
        !isName y nilIdent) = true
      rw [hy]
      rcases hop with rfl | rfl <;> rfl
  · rw [fixIfStmt_binary_def, if_neg ?c2]
    · rfl
    case c2 =>
      show ¬(((isName (Expr.ident errIdent) errIdent && (op == BinOp.eql || op == BinOp.neq)) &&
        !isName (Expr.ident nilIdent) nilIdent) = true)
      simp [isName]
  · rw [fixIfStmt_binary_def, if_neg ?c3, fixIfCompound_binary_def, if_pos ?c4]
    case c3 =>
      show ¬(((isName (Expr.binary (.ident errIdent) BinOp.neq (.ident nilIdent)) errIdent &&
        (lop == BinOp.eql || lop == BinOp.neq)) &&
        !isName (Expr.binary (.ident errIdent) BinOp.neq y) nilIdent) = true)
      simp [isName]
    case c4 =>
      show ((lop == BinOp.land || lop == BinOp.lor) &&
        ((isName (Expr.ident errIdent) errIdent && (BinOp.neq == BinOp.eql || BinOp.neq == BinOp.neq)) &&
          isName (Expr.ident nilIdent) nilIdent) &&
        ((isName (Expr.ident errIdent) errIdent && (BinOp.neq == BinOp.eql || BinOp.neq == BinOp.neq)) &&
          !isName y nilIdent)) = true
      rw [hy]
      rcases hlop with rfl | rfl <;> rfl

theorem claim_C2_witness :
    ((BinOp.neq = .eql ∨ BinOp.neq = .neq) ∧ (BinOp.land = .land ∨ BinOp.land = .lor) ∧
      isName (.ident "ErrNotFound") nilIdent = false)
  ∧ fixIfStmt (.binary (.ident errIdent) .neq (.ident "ErrNotFound")) =
      (.binary causeExpr .neq (.ident "ErrNotFound"), true)
  ∧ fixIfStmt (.binary (.ident errIdent) .neq (.ident nilIdent)) =
      (.binary (.ident errIdent) .neq (.ident nilIdent), false)
  ∧ fixIfStmt (.binary (.binary (.ident errIdent) .neq (.ident nilIdent)) .land
        (.binary (.ident errIdent) .neq (.ident "ErrNotFound"))) =
      (.binary (.binary (.ident errIdent) .neq (.ident nilIdent)) .land
        (.binary causeExpr .neq (.ident "ErrNotFound")), true) :=
  ⟨⟨Or.inr rfl, Or.inl rfl, rfl⟩,
   (claim_C2 .neq .land (.ident "ErrNotFound") (Or.inr rfl) (Or.inl rfl) rfl).1,
   (claim_C2 .neq .land (.ident "ErrNotFound") (Or.inr rfl) (Or.inl rfl) rfl).2.1,
   (claim_C2 .neq .land (.ident "ErrNotFound") (Or.inr rfl) (Or.inl rfl) rfl).2.2⟩

/-- C10: the compound rewrite is broader than the spec's stated shape:
the first clause may compare `err` to `nil` with `==` as well as `!=`,
and the second clause with `==` or `!=`, under `&&` or `||`; in all
those cases the second clause's left operand becomes
`errors.Cause(err)`.  In particular `err == nil || err != X` is
rewritten. -/
theorem claim_C10 (op1 op2 lop : BinOp) (y : Expr)
    (h1 : op1 = .eql ∨ op1 = .neq) (h2 : op2 = .eql ∨ op2 = .neq)
    (hl : lop = .land ∨ lop = .lor) (hy : isName y nilIdent = false) :
    fixIfStmt (.binary (.binary (.ident errIdent) op1 (.ident nilIdent)) lop
        (.binary (.ident errIdent) op2 y)) =
      (.binary (.binary (.ident errIdent) op1 (.ident nilIdent)) lop
        (.binary causeExpr op2 y), true) := by
  rw [fixIfStmt_binary_def, if_neg ?c5, fixIfCompound_binary_def, if_pos ?c6]
  case c5 =>
    show ¬(((isName (Expr.binary (.ident errIdent) op1 (.ident nilIdent)) errIdent &&
      (lop == BinOp.eql || lop == BinOp.neq)) &&
      !isName (Expr.binary (.ident errIdent) op2 y) nilIdent) = true)
    simp [isName]
  case c6 =>
    show ((lop == BinOp.land || lop == BinOp.lor) &&
      ((isName (Expr.ident errIdent) errIdent && (op1 == BinOp.eql || op1 == BinOp.neq)) &&
        isName (Expr.ident nilIdent) nilIdent) &&
      ((isName (Expr.ident errIdent) errIdent && (op2 == BinOp.eql || op2 == BinOp.neq)) &&
        !isName y nilIdent)) = true
    rw [hy]
    rcases h1 with rfl | rfl <;> rcases h2 with rfl | rfl <;>
      rcases hl with rfl | rfl <;> rfl

theorem claim_C10_witness :
    ((BinOp.eql = .eql ∨ BinOp.eql = .neq) ∧ (BinOp.neq = .eql ∨ BinOp.neq = .neq) ∧
      (BinOp.lor = .land ∨ BinOp.lor = .lor) ∧ isName (.ident "ErrX") nilIdent = false)
  ∧ fixIfStmt (.binary (.binary (.ident errIdent) .eql (.ident nilIdent)) .lor
        (.binary (.ident errIdent) .neq (.ident "ErrX"))) =
      (.binary (.binary (.ident errIdent) .eql (.ident nilIdent)) .lor
        (.binary causeExpr .neq (.ident "ErrX")), true) :=
  ⟨⟨Or.inl rfl, Or.inr rfl, Or.inr rfl, rfl⟩,
   claim_C10 .eql .neq .lor (.ident "ErrX") (Or.inl rfl) (Or.inr rfl) (Or.inr rfl) rfl⟩

end Errfix

namespace Errfix

/-! ### Claim C3 -/

/-- C3's universal opening ("every call to `fmt.Errorf` is rewritten")
fails on the source's early returns: a call with no arguments, and a
call whose first argument is not a string literal, are left entirely
unchanged (target still `fmt.Errorf`, changed flag false). -/
theorem claim_C3_counterexample :
    fixCallExpr fmtErrorf [] = ((fmtErrorf, []), false)
  ∧ fixCallExpr fmtErrorf [.call (.ident "mkFormat") []] =
      ((fmtErrorf, [.call (.ident "mkFormat") []]), false)
  ∧ fmtErrorf ≠ errorfFun := by
  refine ⟨rfl, rfl, ?_⟩
  intro h
  injection h with h1 h2
  injection h1 with h3
  exact absurd h3 (by decide)

/-- C3 (amended): a `fmt.Errorf` call with at least one argument whose
first argument is a string literal is rewritten — to `errors.Wrapf
(err, trimmedFormat, middle args)` when the format ends in `%v` and the
last argument is the identifier `err`, and to `errors.Errorf` with all
arguments unchanged otherwise; a call with no arguments, or whose first
argument is not a string literal, is left unchanged. -/
theorem claim_C3 (format : String) (a0 r1 : Expr) (rest rs : List Expr) :
    fixCallExpr fmtErrorf [] = ((fmtErrorf, []), false)
  ∧ (isStringLit a0 = false →
      fixCallExpr fmtErrorf (a0 :: rest) = ((fmtErrorf, a0 :: rest), false))
  ∧ fixCallExpr fmtErrorf [.basicLit .str format] =
      ((errorfFun, [.basicLit .str format]), true)
  ∧ ((isName ((r1 :: rs).getLast (List.cons_ne_nil r1 rs)) errIdent &&
        endsInPctV format) = true →
      fixCallExpr fmtErrorf (.basicLit .str format :: r1 :: rs) =
        ((wrapfFun, (r1 :: rs).getLast (List.cons_ne_nil r1 rs)
          :: .basicLit .str (trimVerb format) :: (r1 :: rs).dropLast), true))
  ∧ ((isName ((r1 :: rs).getLast (List.cons_ne_nil r1 rs)) errIdent &&
        endsInPctV format) = false →
      fixCallExpr fmtErrorf (.basicLit .str format :: r1 :: rs) =
        ((errorfFun, .basicLit .str format :: r1 :: rs), true)) := by
  refine ⟨rfl, ?_, rfl, ?_, ?_⟩
  · intro h
    cases a0 with
    | ident n => rfl
    | basicLit k v =>
      cases k with
      | str => exact absurd h (by simp [isStringLit])
      | otherKind t => rfl
    | binary x op y => rfl
    | selector x s => rfl
    | call fn as => rfl
    | typeAssert x ty => rfl
    | otherE tag as => rfl
  · intro h
    rw [fixCallExpr_fmt_cons_def, if_pos h]
  · intro h
    rw [fixCallExpr_fmt_cons_def, if_neg (by simp [h])]

theorem claim_C3_witness :
    isStringLit (Expr.call (.ident "mk") []) = false
  ∧ fixCallExpr fmtErrorf [Expr.call (.ident "mk") []] =
      ((fmtErrorf, [Expr.call (.ident "mk") []]), false)
  ∧ (isName (([Expr.ident errIdent] : List Expr).getLast (List.cons_ne_nil _ _)) errIdent &&
      endsInPctV "not found: %v") = true
  ∧ fixCallExpr fmtErrorf [.basicLit .str "not found: %v", .ident errIdent] =
      ((wrapfFun, [.ident errIdent, .basicLit .str "not found"]), true)
  ∧ (isName (([Expr.ident "x"] : List Expr).getLast (List.cons_ne_nil _ _)) errIdent &&
      endsInPctV "not found %d") = false
  ∧ fixCallExpr fmtErrorf [.basicLit .str "not found %d", .ident "x"] =
      ((errorfFun, [.basicLit .str "not found %d", .ident "x"]), true) := by
  refine ⟨rfl, ?_, rfl, ?_, rfl, ?_⟩
  · exact (claim_C3 "not found: %v" (Expr.call (.ident "mk") [])
      (Expr.ident errIdent) [] []).2.1 rfl
  · exact (claim_C3 "not found: %v" (Expr.call (.ident "mk") [])
      (Expr.ident errIdent) [] []).2.2.2.1 rfl
  · exact (claim_C3 "not found %d" (Expr.call (.ident "mk") [])
      (Expr.ident "x") [] []).2.2.2.2 rfl

end Errfix

namespace Errfix

/-! ### Claim C4 -/

/-- C4's "preserving ... any existing alias name" is false: the code
sets `imp.Name = nil` before rewriting the path, so an aliased standard
`errors` import loses its alias. -/
theorem claim_C4_counterexample :
    EndProcess true ⟨"foo", [.importD [⟨some "stderrors", "errors"⟩]]⟩ =
      (⟨"foo", [.importD [⟨none, pkgPath⟩]]⟩, true)
  ∧ (some "stderrors" : Option String) ≠ none := ⟨rfl, by decide⟩

/-- C4 (amended): at finalize with the changed flag set, when the wrap
path is not yet imported and a standard `errors` import spec exists
(first among the groupings, with no earlier "errors" spec), that spec's
path is rewritten in place to the wrap path — its position among
the imports is preserved, but its alias name is cleared to none, not
preserved. -/
theorem claim_C4 (pk : String) (ds0 : List Decl) (pre post : List ImportSpec)
    (al : Option String) (rest : List Decl)
    (h0 : ∀ d ∈ ds0, d.isImp = false)
    (hpre : ∀ s ∈ pre, s.path ≠ "errors")
    (hno : hasImportPath
      ⟨pk, ds0 ++ .importD (pre ++ ⟨al, "errors"⟩ :: post) :: rest⟩ pkgPath = false) :
    EndProcess true ⟨pk, ds0 ++ .importD (pre ++ ⟨al, "errors"⟩ :: post) :: rest⟩ =
      (⟨pk, ds0 ++ .importD (pre ++ ⟨none, pkgPath⟩ :: post) :: rest⟩, true) :=
  endProcess_replace_errors pk ds0 pre post al rest h0 hpre hno

theorem claim_C4_witness :
    (∀ d ∈ [Decl.funcD "f" []], d.isImp = false)
  ∧ (∀ s ∈ [(⟨none, "bar"⟩ : ImportSpec)], s.path ≠ "errors")
  ∧ hasImportPath ⟨"foo", [Decl.funcD "f" []] ++
      .importD ([⟨none, "bar"⟩] ++ ⟨some "stderrors", "errors"⟩ :: []) :: []⟩
      pkgPath = false
  ∧ EndProcess true ⟨"foo", [Decl.funcD "f" []] ++
      .importD ([⟨none, "bar"⟩] ++ ⟨some "stderrors", "errors"⟩ :: []) :: []⟩ =
      (⟨"foo", [Decl.funcD "f" []] ++
        .importD ([⟨none, "bar"⟩] ++ ⟨none, pkgPath⟩ :: []) :: []⟩, true) := by
  refine ⟨?_, ?_, rfl, ?_⟩
  · intro d hd
    rw [List.mem_singleton] at hd
    rw [hd]
    rfl
  · intro s hs
    rw [List.mem_singleton] at hs
    rw [hs]
    decide
  · refine claim_C4 "foo" [Decl.funcD "f" []] [⟨none, "bar"⟩] []
      (some "stderrors") [] ?_ ?_ rfl
    · intro d hd
      rw [List.mem_singleton] at hd
      rw [hd]
      rfl
    · intro s hs
      rw [List.mem_singleton] at hs
      rw [hs]
      decide

/-! ### Claim C5 -/

/-- C5's exactly-once guarantee fails if the wrap path already appears
twice in the import table: finalize sees it present and does nothing,
leaving two occurrences. -/
theorem claim_C5_counterexample :
    countImportPath (EndProcess true
      ⟨"foo", [.importD [⟨none, pkgPath⟩], .importD [⟨none, pkgPath⟩]]⟩).1
      pkgPath = 2 := rfl

/-- C5 (amended): for a file where the rule's changed flag is true,
finalize leaves the wrap-library path imported exactly once provided
it appeared at most once beforehand (the code never deduplicates
pre-existing occurrences). -/
theorem claim_C5 (f : GoFile) (h : countImportPath f pkgPath ≤ 1) :
    countImportPath (EndProcess true f).1 pkgPath = 1 :=
  endProcess_count_one f h

theorem claim_C5_witness :
    countImportPath ⟨"foo", [Decl.importD [⟨none, "errors"⟩]]⟩ pkgPath ≤ 1
  ∧ countImportPath (EndProcess true
      ⟨"foo", [Decl.importD [⟨none, "errors"⟩]]⟩).1 pkgPath = 1 :=
  ⟨by decide, claim_C5 ⟨"foo", [Decl.importD [⟨none, "errors"⟩]]⟩ (by decide)⟩

end Errfix

namespace Errfix

/-! ### Claim C6 -/

/-- C6: an input file that parses successfully and in which the
traversal reports no change is returned with the same name, content
byte-for-byte, and no error — uniformly in the render capability, so
the tree is never rendered for it. -/
theorem claim_C6 (parse : String → Option GoFile) (f : File) (t : GoFile)
    (hp : parse f.content = some t) (hc : (visitFile t).2 = false) :
    ∀ render : GoFile → String,
      Process parse render f = some ⟨f.name, f.content, none⟩ :=
  process_no_change parse f t hp hc

def t6 : GoFile := ⟨"foo", [.funcD "foo" []]⟩

def parse6 : String → Option GoFile := fun s => if s = "src" then some t6 else none

theorem claim_C6_witness :
    parse6 "src" = some t6
  ∧ (visitFile t6).2 = false
  ∧ ∀ render : GoFile → String,
      Process parse6 render ⟨"a.go", "src", none⟩ = some ⟨"a.go", "src", none⟩ :=
  ⟨rfl, rfl, claim_C6 parse6 ⟨"a.go", "src", none⟩ t6 rfl rfl⟩

/-! ### Claim C7 -/

/-- A file whose tree holds an `errors.New` call with the wrap library
already imported: the call matches the rule on every run (the rewrite
leaves `errors.New` in place), so the changed flag is true again on the
engine's own output. -/
def t7 : GoFile :=
  ⟨"foo", [.importD [⟨none, pkgPath⟩],
    .otherD [.call (.selector (.ident "errors") "New") [.basicLit .str "x"]]]⟩

def parse7 : String → Option GoFile := fun s =>
  if s = "in" ∨ s = "out" then some t7 else none

def render7 : GoFile → String := fun _ => "out"

/-- C7's "no rule matches twice" is false: on this file Process
succeeds, and on its own output the traversal reports a change again
(the `errors.New` shape re-matches); only the content is stable. -/
theorem claim_C7_counterexample :
    Process parse7 render7 ⟨"a.go", "in", none⟩ = some ⟨"a.go", "out", none⟩
  ∧ Process parse7 render7 ⟨"a.go", "out", none⟩ = some ⟨"a.go", "out", none⟩
  ∧ parse7 "out" = some t7
  ∧ (visitFile t7).2 = true := ⟨rfl, rfl, rfl, rfl⟩

/-- C7 (amended): when Process succeeds twice in a row (and re-parsing
a rendered tree gives that tree back), the second output's content
equals the first output's content — the engine is idempotent at the
content level, although a rule may report a change again on the second
run. -/
theorem claim_C7 (parse : String → Option GoFile) (render : GoFile → String)
    (f f1 f2 : File)
    (h1 : Process parse render f = some f1)
    (h2 : Process parse render f1 = some f2)
    (hpr : ∀ t, parse f.content = some t →
      parse (render (runRule t).1) = some (runRule t).1) :
    f2.content = f1.content :=
  process_content_idem parse render f f1 f2 h1 h2 hpr

theorem claim_C7_witness :
    Process parse7 render7 ⟨"b.go", "in", none⟩ = some ⟨"b.go", "out", none⟩
  ∧ Process parse7 render7 ⟨"b.go", "out", none⟩ = some ⟨"b.go", "out", none⟩
  ∧ (File.mk "b.go" "out" none).content = (File.mk "b.go" "out" none).content := by
  refine ⟨rfl, rfl, ?_⟩
  refine claim_C7 parse7 render7 ⟨"b.go", "in", none⟩ ⟨"b.go", "out", none⟩
    ⟨"b.go", "out", none⟩ rfl rfl ?_
  intro t ht
  replace ht : some t7 = some t := ht
  injection ht with h
  subst h
  rfl

end Errfix

namespace Errfix

/-! ### Claim C8 -/

/-- A file system in which every stat fails. -/
def fs8 : FS :=
  ⟨fun _ => .error "no such file", fun _ => .error "no such file",
    fun _ => [], fun _ => none⟩

/-- C8 is false for path inputs that cannot be statted: the validation
loop at the top of `Read` fails the whole call with an error, rather
than yielding a File carrying the error. -/
theorem claim_C8_counterexample :
    Read fs8 [.path "a.go"] =
      .error "the input source is not a valid file or directory, no such file" := rfl

/-- C8 (amended): failures in the asynchronous read phase are data on
the stream — a statted `.go` file whose read fails yields a File
carrying only the error, and the `Read` call itself succeeds.  (Only
the up-front stat validation of path inputs fails the call.) -/
theorem claim_C8 (fs : FS) (p e : String)
    (hgo : isGoFile p = true)
    (hstat : fs.stat p = .ok ⟨false⟩)
    (hread : fs.readFile p = .error e) :
    Read fs [.path p] = .ok [⟨p, "", some e⟩] := by
  have hrp : readPath fs p = [⟨p, "", some e⟩] := by
    unfold readPath
    rw [if_pos hgo, hread]
  have hv : validateInputs fs [Input.path p] = none := by
    show (match fs.stat p with
      | .error e2 => some ("the input source is not a valid file or directory, " ++ e2)
      | .ok _ => validateInputs fs []) = none
    rw [hstat]
    rfl
  have hr : readPhase fs [Input.path p] 0 = [⟨p, "", some e⟩] := by
    show ((match fs.stat p with
      | .error e2 => [⟨p, "", some e2⟩]
      | .ok info => if info.isDir then readDir fs p else readPath fs p) ++
        readPhase fs [] 0) = [⟨p, "", some e⟩]
    rw [hstat]
    show readPath fs p ++ ([] : List File) = [⟨p, "", some e⟩]
    rw [hrp]
    rfl
  unfold Read
  show (match validateInputs fs [Input.path p] with
    | some e2 => Except.error e2
    | none => Except.ok (readPhase fs [Input.path p] 0)) = .ok [⟨p, "", some e⟩]
  rw [hv]
  show Except.ok (readPhase fs [Input.path p] 0) =
    Except.ok [File.mk p "" (some e)]
  rw [hr]

/-- A file system where stat succeeds but reading fails. -/
def fs8b : FS :=
  ⟨fun _ => .ok ⟨false⟩, fun _ => .error "permission denied",
    fun _ => [], fun _ => none⟩

theorem claim_C8_witness :
    isGoFile "a.go" = true
  ∧ fs8b.stat "a.go" = .ok ⟨false⟩
  ∧ fs8b.readFile "a.go" = .error "permission denied"
  ∧ Read fs8b [.path "a.go"] = .ok [⟨"a.go", "", some "permission denied"⟩] :=
  ⟨rfl, rfl, rfl, claim_C8 fs8b "a.go" "permission denied" rfl rfl rfl⟩

/-! ### Claim C9 -/

/-- C9: the scheduling loop's early-stop channel is never written
anywhere in the code, so its error branch is dead: every stream item is
scheduled no matter how early a unit fails (first conjunct: the loop
with an empty error channel is the identity; second: both files after a
failing first file are scheduled).  The error the run returns is still
the first failing unit's error. -/
theorem claim_C9 :
    (∀ files : List File, schedLoop none files = files)
  ∧ (ErrFixProcess (fun f => .ok f) (fun _ _ => none)
      [⟨"a.go", "", some "boom"⟩, ⟨"b.go", "x", none⟩]).1 =
      [⟨"a.go", "", some "boom"⟩, ⟨"b.go", "x", none⟩]
  ∧ (ErrFixProcess (fun f => .ok f) (fun _ _ => none)
      [⟨"a.go", "", some "boom"⟩, ⟨"b.go", "x", none⟩]).2 =
      some "error while reading from a.go, boom" := by
  refine ⟨?_, rfl, rfl⟩
  intro files
  induction files with
  | nil => rfl
  | cons f fs ih =>
    show f :: schedLoop none fs = f :: fs
    rw [ih]

end Errfix
